/-
Verification of the "ligature" in-browser rich-text editing toolkit.

This file gives a shallow embedding, in Lean 4, of the parts of the
code base that the specification's claims are about:

  * `src/sanitize.js`      — the whitelist sanitizer (`clean_node`)
  * `src/dataFilter.js`    — the block normalizer (`flattenBlocksDown`, …)
  * `src/selectionContext.js` (second module, selection persistence)
                           — `saveSelection` / `restoreSelection`
  * `src/undoManager.js`   — the undo manager's `onChange` override and
                             `saveState`
  * `src/richTextEditor.js`— the blockquote run-wrapping of
                             `applyCommand`/`doBlock`, `insertAsyncImage`,
                             and `updateAsyncImage`'s change notification

DOM trees are modelled as a nested inductive (`DNode`): text nodes carry a
string, element nodes carry a tag (stored the way `Node.nodeName` reports
it, i.e. uppercase for HTML elements), an attribute list, and a list of
children.  Every node carries a numeric `id` standing for JavaScript
object identity; theorems that depend on identity assume the ids in a
tree are distinct, which is what real DOM node identity provides.

Comment nodes and entity-reference nodes are not modelled: no claim
involves them, and several of the modelled routines (e.g. the selection
walk, which calls `getAttribute` on every non-text node) are only ever
run on trees of elements and text.
-/
import Mathlib

/- ................................................................
   Section 0: the DOM model
   ................................................................ -/


/- Character-level string helpers (ASCII case mapping, trim, split, join,
prefix test), written over `List Char` so that concrete runs of the
embedded code reduce inside the kernel.  They implement the JavaScript
operations the source uses: `toLowerCase`, `toUpperCase`, `trim`,
`split(' ')`, `join(' ')` and `indexOf(p) === 0`. -/

def charLower (c : Char) : Char := if 'A' ≤ c ∧ c ≤ 'Z' then Char.ofNat (c.toNat + 32) else c

def strLower (s : String) : String := String.mk (s.toList.map charLower)

def strUpper (s : String) : String :=
  String.mk (s.toList.map (fun c => if 'a' ≤ c ∧ c ≤ 'z' then Char.ofNat (c.toNat - 32) else c))

def strStartsWith (s p : String) : Bool := p.toList.isPrefixOf s.toList

def strTrim (s : String) : String :=
  String.mk (((s.toList.dropWhile Char.isWhitespace).reverse.dropWhile Char.isWhitespace).reverse)

def strSplitSpace (s : String) : List String := (s.toList.splitOn ' ').map String.mk

def strJoinSpace : List String → String
  | [] => ""
  | x :: xs => xs.foldl (fun a b => a ++ " " ++ b) x

inductive DNode where
  | text (id : Nat) (s : String)
  | elem (id : Nat) (tag : String) (attrs : List (String × String)) (children : List DNode)
deriving Repr

/-- Identity (JavaScript reference) of a node. -/
def nodeId : DNode → Nat
  | .text i _ => i
  | .elem i _ _ _ => i

/-- Tag of a node; text nodes report `#text`, as `Node.nodeName` does. -/
def nodeTag : DNode → String
  | .text _ _ => "#text"
  | .elem _ t _ _ => t

def isTextNode : DNode → Bool
  | .text _ _ => true
  | .elem _ _ _ _ => false

def isElemNode : DNode → Bool
  | .text _ _ => false
  | .elem _ _ _ _ => true

/-- Attribute lookup (`elem.attributes[name]`, `getAttribute`); `none` when
the node is a text node or the attribute is absent. -/
def getAttr (n : DNode) (k : String) : Option String :=
  match n with
  | .text _ _ => none
  | .elem _ _ attrs _ => attrs.lookup k

/-- DOM `setAttributeNode`: replace the value if the attribute exists,
otherwise append it. -/
def setAttr (attrs : List (String × String)) (k v : String) : List (String × String) :=
  if (attrs.lookup k).isSome then
    attrs.map (fun p => if p.1 = k then (k, v) else p)
  else
    attrs ++ [(k, v)]

/-- Does the element carry `contenteditable="false"`?
(`isContentEditableTurnedOff` in dataFilter.js, and the checks
`node.getAttribute('contenteditable') !== 'false'` in the selection walk.) -/
def ceOff (n : DNode) : Bool :=
  getAttr n "contenteditable" = some "false"

mutual
def nodeSize : DNode → Nat
  | .text _ _ => 1
  | .elem _ _ _ cs => 1 + forestSize cs
def forestSize : List DNode → Nat
  | [] => 0
  | c :: cs => nodeSize c + forestSize cs
end

mutual
/-- The concatenated text of a node (`textContent` / jQuery `.text()`). -/
def textContent : DNode → String
  | .text _ s => s
  | .elem _ _ _ cs => forestText cs
/-- The concatenated text of a forest. -/
def forestText : List DNode → String
  | [] => ""
  | c :: cs => textContent c ++ forestText cs
end

mutual
/-- All ids in a node's subtree (preorder). -/
def idsN : DNode → List Nat
  | .text i _ => [i]
  | .elem i _ _ cs => i :: idsF cs
/-- All ids in a forest (document order). -/
def idsF : List DNode → List Nat
  | [] => []
  | c :: cs => idsN c ++ idsF cs
end

mutual
/-- All element nodes of a subtree (the node itself included), in document
order — the order `$(node).find('*')` visits descendants. -/
def elemsN : DNode → List DNode
  | .text _ _ => []
  | .elem i t a cs => .elem i t a cs :: elemsF cs
/-- All element nodes of a forest, in document order. -/
def elemsF : List DNode → List DNode
  | [] => []
  | c :: cs => elemsN c ++ elemsF cs
end

/-- Direct element children (jQuery `.children()` sees only elements). -/
def elemChildren (n : DNode) : List DNode :=
  match n with
  | .text _ _ => []
  | .elem _ _ _ cs => cs.filter isElemNode

mutual
/-- Find the node with identity `i` within a node's subtree. -/
def findN (n : DNode) (i : Nat) : Option DNode :=
  match n with
  | .text j s => if j = i then some (.text j s) else none
  | .elem j t a cs => if j = i then some (.elem j t a cs) else findF cs i
def findF (l : List DNode) (i : Nat) : Option DNode :=
  match l with
  | [] => none
  | c :: cs =>
    match findN c i with
    | some r => some r
    | none => findF cs i
end

mutual
/-- Remove (detach) the node with identity `i` — together with its whole
subtree — from wherever it sits in a subtree.  This is what happens to the
old position of a node when jQuery `append` moves it elsewhere. -/
def removeN (n : DNode) (i : Nat) : Option DNode :=
  match n with
  | .text j s => if j = i then none else some (.text j s)
  | .elem j t a cs => if j = i then none else some (.elem j t a (removeF cs i))
def removeF (l : List DNode) (i : Nat) : List DNode :=
  match l with
  | [] => []
  | c :: cs =>
    if nodeId c = i then cs
    else
      match removeN c i with
      | some c' => c' :: removeF cs i
      | none => removeF cs i
end

/-- All ids of a tree are distinct (node identity is faithful). -/
def uniqF (l : List DNode) : Prop := (idsF l).Nodup

/-- DOM `Node.normalize()` on a child list: empty text nodes are removed
and runs of adjacent text nodes are merged into the first of the run. -/
def dropEmptyTexts (l : List DNode) : List DNode :=
  l.filter fun n =>
    match n with
    | .text _ s => decide (s ≠ "")
    | .elem _ _ _ _ => true

def mergeAdjacentTexts : List DNode → List DNode
  | [] => []
  | .text i s :: rest =>
    match mergeAdjacentTexts rest with
    | .text _ s2 :: rest2 => .text i (s ++ s2) :: rest2
    | r => .text i s :: r
  | n :: rest => n :: mergeAdjacentTexts rest

mutual
/-- Deep `Node.normalize()` of a single node. -/
def normalizeN : DNode → DNode
  | .text i s => .text i s
  | .elem i t a cs => .elem i t a (mergeAdjacentTexts (dropEmptyTexts (normalizeList cs)))
def normalizeList : List DNode → List DNode
  | [] => []
  | c :: cs => normalizeN c :: normalizeList cs
end

/-- Deep normalize of a root's child forest (the root element itself has
no data to merge). -/
def normalizeF (l : List DNode) : List DNode :=
  mergeAdjacentTexts (dropEmptyTexts (normalizeList l))

/- ................................................................
   Section 1: sanitize.js
   ................................................................ -/

/-- `Sanitize.RELATIVE` (sanitize.js line 58). -/
def RELATIVE : String := "__RELATIVE__"

/-- The sanitizer configuration, as assembled by the `Sanitize`
constructor from its options.  Attribute allow-entries are modelled in
their plain string form (the object/value-pattern form is not used by the
configurations the claims are about).  `allow_comments` is omitted because
comment nodes are not modelled, and `transformers` because the claims all
concern transformer-free configurations (with no transformers,
`_transform_element` returns `{attr_whitelist: [], node, whitelist: false}`
and `whitelist_nodes` stays empty). -/
structure SanitizeConfig where
  elements : List String
  attributes : List (String × List String)
  attributesAll : List String
  classnames : List (String × List String)
  protocols : List (String × List (String × List String))
  add_attributes : List (String × List (String × String))
  remove_contents : List String
  remove_all_contents : Bool
deriving Repr, DecidableEq

/-- First-occurrence deduplication over a `uniq_hash` of already-seen
entries, as `_merge_arrays_uniq` produces on the concatenation of its
argument arrays. -/
def dedupSeen (seen : List String) : List String → List String
  | [] => []
  | x :: xs => if seen.contains x then dedupSeen seen xs else x :: dedupSeen (x :: seen) xs

def dedupFirst (l : List String) : List String := dedupSeen [] l

/-- Look up the protocol list for a tag/attribute pair
(`this.config.protocols[name][attr_name]`). -/
def protLookup (prots : List (String × List (String × List String))) (name attr : String) :
    Option (List String) :=
  match prots.lookup name with
  | none => none
  | some m => m.lookup attr

/-- Replace the protocol list stored for a tag/attribute pair.  This models
the fact that `protocols.push(Sanitize.RELATIVE)` mutates the array held
inside the configuration object itself. -/
def protUpdate (prots : List (String × List (String × List String))) (name attr : String)
    (pl : List String) : List (String × List (String × List String)) :=
  prots.map fun p =>
    if p.1 = name then (p.1, p.2.map fun q => if q.1 = attr then (q.1, pl) else q) else p

/-- The class-name filter of `_clean_element` (sanitize.js lines 188–191):
when the attribute is `class` and the configuration has a classnames entry
for the tag (present entries count even when empty — an empty array is
truthy in JavaScript), the value is filtered token-by-token and `attr_ok`
is overwritten with "filtered value is non-empty".  Otherwise `attr_ok`
and the value pass through unchanged. -/
def classFilter (classnames : List (String × List String)) (name attr_name attr_value : String)
    (ok : Bool) : Bool × String :=
  if attr_name = "class" then
    match classnames.lookup name with
    | some cl =>
      let filtered := strJoinSpace ((strSplitSpace attr_value).filter (fun t => cl.contains t))
      (filtered ≠ "", filtered)
    | none => (ok, attr_value)
  else (ok, attr_value)

/-- The attribute-cleaning `for` loop of `_clean_element` (sanitize.js
lines 161–202), processing the allowed attribute at index `i`.

The protocol check (lines 175–186) is reproduced including both of its
side effects: `protocols.push(Sanitize.RELATIVE)` grows the protocol array
stored inside the configuration object by one entry, and the inner
`for (var i in protocols)` loop reuses the outer loop variable `i`, so
after the check the outer loop resumes from index `j + 1` (prefix match
found at protocol index `j`, then `i++`) or from the length of the grown
protocol array (no match).  Because of the latter the source loop need
not terminate (a match at index `j` with `j + 1 ≤ i` reprocesses the same
attribute forever), so the recursion is given explicit fuel;
`_clean_element` passes fuel large enough to cover every terminating run
of the configurations this development evaluates. -/
def attrStep (classnames : List (String × List String)) (name : String) (allowed : List String)
    (elemAttrs : List (String × String)) :
    Nat → Nat → List (String × List (String × List String)) → List (String × String) →
    (List (String × String) × List (String × List (String × List String)))
  | 0, _, prots, out => (out, prots)
  | fuel + 1, i, prots, out =>
    if h : i < allowed.length then
      let attr_name := allowed.get ⟨i, h⟩
      match elemAttrs.lookup attr_name with
      | none => attrStep classnames name allowed elemAttrs fuel (i + 1) prots out
      | some attr_value =>
        let vlc := strLower attr_value
        match protLookup prots name attr_name with
        | some pl =>
          let pl' := pl ++ [RELATIVE]
          let prots' := protUpdate prots name attr_name pl'
          match pl'.findIdx? (fun p => strStartsWith vlc (strLower p)) with
          | some j =>
            let (ok, v) := classFilter classnames name attr_name attr_value true
            attrStep classnames name allowed elemAttrs fuel (j + 1) prots'
              (if ok then setAttr out attr_name v else out)
          | none =>
            let (ok, v) := classFilter classnames name attr_name attr_value false
            attrStep classnames name allowed elemAttrs fuel pl'.length prots'
              (if ok then setAttr out attr_name v else out)
        | none =>
          let (ok, v) := classFilter classnames name attr_name attr_value true
          attrStep classnames name allowed elemAttrs fuel (i + 1) prots
            (if ok then setAttr out attr_name v else out)
    else (out, prots)

/-- Total room in a protocol map, used to size the attribute loop's fuel. -/
def protTotal (prots : List (String × List (String × List String))) : Nat :=
  (prots.map (fun p => (p.2.map (fun q => q.2.length + 1)).sum + 1)).sum

/-- Apply `config.add_attributes[name]` (sanitize.js lines 205–211). -/
def applyAddAttrs (adds : Option (List (String × String))) (out : List (String × String)) :
    List (String × String) :=
  match adds with
  | none => out
  | some l => l.foldl (fun acc p => setAttr acc p.1 p.2) out

/-- The allowed-attribute list assembled by `_clean_element` (sanitize.js
lines 156–159): the per-tag entries merged with the `__ALL__` entries
(the transformer whitelist is empty), deduplicated first-occurrence, plus
`class` when a non-empty classnames entry exists for the tag. -/
def allowedAttrsFor (σ : SanitizeConfig) (name : String) : List String :=
  let allowed0 := dedupFirst ((σ.attributes.lookup name).getD [] ++ σ.attributesAll)
  if ((σ.classnames.lookup name).getD []).length ≠ 0 then allowed0 ++ ["class"]
  else allowed0

/-- The attribute-cleaning phase of `_clean_element` for an allowed
element: runs the attribute loop (with ample fuel), applies
`add_attributes`, and returns the output attribute list together with the
configuration as mutated by the loop's `protocols.push` calls. -/
def cleanElemCfg (σ : SanitizeConfig) (name : String) (a : List (String × String)) :
    List (String × String) × SanitizeConfig :=
  let allowed := allowedAttrsFor σ name
  let fuel := (allowed.length + 1) * (allowed.length + protTotal σ.protocols + 2)
  let (outAttrs, prots') := attrStep σ.classnames name allowed a fuel 0 σ.protocols []
  (applyAddAttrs (σ.add_attributes.lookup name) outAttrs, { σ with protocols := prots' })

mutual
/-- `_clean` / `_clean_element` (sanitize.js lines 101–236) for one source
node, threading the configuration state (whose protocol arrays the
protocol check mutates).  A node cleans to a *list* of output nodes:
a disallowed element contributes its cleaned children in its place.
With no transformers configured, `_transform_element` leaves the node
unchanged, contributes no attribute whitelist and never whitelists a
node, so the dynamic `whitelist_nodes` branch is dead code here.
`this.current_element.normalize()` is reflected by normalizing the child
list of every constructed element. -/
def cleanN (σ : SanitizeConfig) (n : DNode) :
    List DNode × SanitizeConfig :=
  match n with
  | .text _ s => ([.text 0 s], σ)
  | .elem _ t a cs =>
    let name := strLower t
    let dropKids := σ.remove_all_contents || σ.remove_contents.contains name
    if σ.elements.contains name then
      let (outAttrs2, σ') := cleanElemCfg σ name a
      let (kids, σ'') := if dropKids then ([], σ') else cleanF σ' cs
      ([.elem 0 t outAttrs2 (normalizeF kids)], σ'')
    else
      if dropKids then ([], σ) else cleanF σ cs
/-- Clean a list of sibling nodes in order, threading the configuration. -/
def cleanF (σ : SanitizeConfig) (l : List DNode) :
    List DNode × SanitizeConfig :=
  match l with
  | [] => ([], σ)
  | c :: cs =>
    let (o1, σ1) := cleanN σ c
    let (o2, σ2) := cleanF σ1 cs
    (o1 ++ o2, σ2)
end

/-- `Sanitize.prototype.clean_node` (sanitize.js lines 61–287): clean every
child of the container into a fresh fragment and normalize the fragment.
The returned pair is (fragment children, configuration state after the
call) — the second component records the mutations `clean_node` performed
on the configuration object it shares with its caller. -/
def clean_node (σ : SanitizeConfig) (container : DNode) :
    List DNode × SanitizeConfig :=
  match container with
  | .text _ _ => ([], σ)
  | .elem _ _ _ cs =>
    let (o, σ') := cleanF σ cs
    (normalizeF o, σ')

/-- The default `filterRules` configuration of the rich-text editor
(richTextEditor.js lines 160–176), as handed to `new Sanitize(...)` by
`DataFilter.prototype.filterHTML`. -/
def defaultFilterRules : SanitizeConfig :=
  { elements := ["a", "b", "i", "ul", "ol", "li", "p", "h2", "blockquote", "img", "iframe",
                 "figure", "br", "hr", "pre", "sub", "sup", "small"]
    attributes := [("a", ["href", "title"]),
                   ("img", ["src", "alt", "data-orig-width", "data-orig-height"]),
                   ("hr", ["data-label"]),
                   ("iframe", ["src", "width", "height", "frameborder"]),
                   ("figure", ["data-orig-width", "data-orig-height"])]
    attributesAll := []
    classnames := [("hr", ["read-more"])]
    protocols := [("a", [("href", ["http", "https", "mailto"])])]
    add_attributes := []
    remove_contents := ["style", "noscript", "script", "meta"]
    remove_all_contents := false }

/- Decidable equality for DNode (hand-rolled: `deriving` does not handle
the nested inductive). -/

mutual
def decEqN : (m n : DNode) → Decidable (m = n)
  | .text i s, .text j t =>
    if h1 : i = j then
      if h2 : s = t then isTrue (by rw [h1, h2])
      else isFalse (by intro h; cases h; exact h2 rfl)
    else isFalse (by intro h; cases h; exact h1 rfl)
  | .text _ _, .elem _ _ _ _ => isFalse (by intro h; exact DNode.noConfusion h)
  | .elem _ _ _ _, .text _ _ => isFalse (by intro h; exact DNode.noConfusion h)
  | .elem i t a cs, .elem j u b ds =>
    if h1 : i = j then
      if h2 : t = u then
        if h3 : a = b then
          match decEqF cs ds with
          | isTrue h4 => isTrue (by rw [h1, h2, h3, h4])
          | isFalse h4 => isFalse (by intro h; cases h; exact h4 rfl)
        else isFalse (by intro h; cases h; exact h3 rfl)
      else isFalse (by intro h; cases h; exact h2 rfl)
    else isFalse (by intro h; cases h; exact h1 rfl)
def decEqF : (l m : List DNode) → Decidable (l = m)
  | [], [] => isTrue rfl
  | [], _ :: _ => isFalse (by intro h; exact List.noConfusion h)
  | _ :: _, [] => isFalse (by intro h; exact List.noConfusion h)
  | c :: cs, d :: ds =>
    match decEqN c d with
    | isTrue h1 =>
      match decEqF cs ds with
      | isTrue h2 => isTrue (by rw [h1, h2])
      | isFalse h2 => isFalse (by intro h; cases h; exact h2 rfl)
    | isFalse h1 => isFalse (by intro h; cases h; exact h1 rfl)
end

instance : DecidableEq DNode := decEqN

/- ................................................................
   Section 2: dataFilter.js — the block normalizer
   ................................................................ -/

/-- `blockElements` (dataFilter.js line 15). -/
def blockElements : List String := ["P", "FIGURE", "H2", "BLOCKQUOTE", "UL", "OL", "PRE"]

/-- `mediaElements` (dataFilter.js line 16). -/
def mediaElements : List String := ["FIGURE", "IFRAME", "IMG", "HR"]

/-- `mediaHolderElement` (dataFilter.js line 17). -/
def mediaHolderElement : String := "DIV"

/-- `separatorElement` (dataFilter.js line 18). -/
def separatorElement : String := "HR"

/-- `isBlock` (dataFilter.js lines 20–22). -/
def isBlockB (n : DNode) : Bool := blockElements.contains (nodeTag n)

/-- `isMedia` (dataFilter.js lines 24–26). -/
def isMediaB (n : DNode) : Bool := mediaElements.contains (nodeTag n)

/-- Proper-descendant element list (`$(element).find(...)` scope). -/
def descElems (n : DNode) : List DNode :=
  match n with
  | .text _ _ => []
  | .elem _ _ _ cs => elemsF cs

/-- `hasMedia` (dataFilter.js lines 28–30): a media-tagged element occurs
among the proper descendants. -/
def hasMediaB (n : DNode) : Bool := (descElems n).any isMediaB

/-- `isEmptyElement` as `flattenBlocksDown` calls it (no `trim` flag,
dataFilter.js lines 281–288): empty text, not itself media, no media
descendant, not the separator tag. -/
def isEmptyElementB (n : DNode) : Bool :=
  textContent n = "" && !isMediaB n && !hasMediaB n && !(nodeTag n = separatorElement)

/-- The `hasBlockChildren` test inside `flattenBlocksDown`'s append loop
(dataFilter.js lines 145–147): some direct element child is a block. -/
def hasBlockChildrenB (n : DNode) : Bool := (elemChildren n).any isBlockB

/-- Membership test of the `getBlockNodes` filter (dataFilter.js
lines 98–102): a recognized block tag, or `contenteditable="false"`. -/
def collectedB (n : DNode) : Bool := isBlockB n || ceOff n

/-- `getBlockNodes` (dataFilter.js lines 98–102): all element descendants
of the root, in document order, filtered to blocks / non-editables. -/
def getBlockNodes (cs : List DNode) : List DNode := (elemsF cs).filter collectedB

/-- The append condition of `flattenBlocksDown`'s re-append loop
(dataFilter.js line 152). -/
def keepB (n : DNode) : Bool := ceOff n || (!isEmptyElementB n && !hasBlockChildrenB n)

/-- `wrapTextNodes` (dataFilter.js lines 58–74) after its initial
`normalize()`: every root-level text node whose trimmed value is non-empty
is wrapped in a fresh `<p>`.  `fresh` supplies identities for the created
wrapper elements. -/
def wrapTexts (fresh : Nat) : List DNode → List DNode × Nat
  | [] => ([], fresh)
  | .text i s :: rest =>
    let (rest', f') :=
      if strTrim s ≠ "" then
        wrapTexts (fresh + 1) rest
      else
        wrapTexts fresh rest
    if strTrim s ≠ "" then (.elem fresh "P" [] [.text i s] :: rest', f')
    else (.text i s :: rest', f')
  | n :: rest =>
    let (rest', f') := wrapTexts fresh rest
    (n :: rest', f')

/-- The root-level inline-wrapping loop of `blockifyInlineNodes`
(dataFilter.js lines 88–95): each element child that is not a block, not
media, not the media-holder tag (`DIV`) and not the separator (`HR`) is
wrapped in a fresh `<p>`. -/
def wrapInline (fresh : Nat) : List DNode → List DNode × Nat
  | [] => ([], fresh)
  | n :: rest =>
    if isElemNode n && !isBlockB n && !isMediaB n &&
        !(nodeTag n = mediaHolderElement) && !(nodeTag n = separatorElement) then
      let (rest', f') := wrapInline (fresh + 1) rest
      (.elem fresh "P" [] [n] :: rest', f')
    else
      let (rest', f') := wrapInline fresh rest
      (n :: rest', f')

/-- `blockifyInlineNodes` (dataFilter.js lines 83–96): normalize and wrap
floating text nodes, then wrap root-level inline elements. -/
def blockifyInlineNodes (fresh : Nat) (cs : List DNode) : List DNode × Nat :=
  let (cs1, f1) := wrapTexts fresh (normalizeF cs)
  wrapInline f1 cs1

/-- The re-append loop of `flattenBlocksDown` (dataFilter.js lines
142–155).  The collected block references (`blockNodes`) are processed in
document order; a kept block is moved — `$(rootNode).append(block)`
detaches it from wherever it currently sits (either still among the
emptied root's detached children, `soup`, or inside an already re-appended
block, `out`) and appends it as the last root child.  A block that fails
the keep test is left where it is. -/
def processBlocks : List Nat → List DNode → List DNode → List DNode
  | [], _, out => out
  | b :: bs, soup, out =>
    match findF soup b with
    | some t =>
      if keepB t then processBlocks bs (removeF soup b) (out ++ [t])
      else processBlocks bs soup out
    | none =>
      match findF out b with
      | some t =>
        if keepB t then processBlocks bs soup (removeF out b ++ [t])
        else processBlocks bs soup out
      | none => processBlocks bs soup out

/-- Largest id occurring in a forest; `maxIdF l + 1` is a safe fresh id. -/
def maxIdF (l : List DNode) : Nat := (idsF l).foldr max 0

/-- The root's children after `flattenBlocksDown`'s initial `normalize()`
and (when `preserveInline` is unset) the first `blockifyInlineNodes` run
(dataFilter.js lines 117–122), paired with the next fresh wrapper id. -/
def flattenR2 (cs : List DNode) (preserveInline : Bool) : List DNode × Nat :=
  let fresh := maxIdF cs + 1
  let r1 := normalizeF cs
  if !preserveInline then blockifyInlineNodes fresh r1 else (r1, fresh)

/-- The root's children right before the re-append loop: when
`preserveInline` is set and blocks were found, `blockifyInlineNodes` runs
after all (dataFilter.js lines 133–137). -/
def flattenR3 (cs : List DNode) (preserveInline : Bool) : List DNode :=
  let (r2, f2) := flattenR2 cs preserveInline
  if preserveInline then (blockifyInlineNodes f2 r2).1 else r2

/-- `flattenBlocksDown` (dataFilter.js lines 114–156), acting on the root
element's child forest.  Fresh wrapper ids start above every id present. -/
def flattenBlocksDown (cs : List DNode) (preserveInline : Bool) : List DNode :=
  let (r2, _) := flattenR2 cs preserveInline
  if (getBlockNodes r2).isEmpty && preserveInline then r2
  else
    let r3 := flattenR3 cs preserveInline
    processBlocks ((getBlockNodes r3).map nodeId) r3 []

/- ................................................................
   Section 3: selection persistence (second module of selectionContext.js)
   ................................................................ -/

/-
`saveSelection` and `restoreSelection` walk the container with an explicit
stack (`nodeStack.pop()` after pushing each element's children in reverse,
i.e. a standard depth-first, document-order traversal), skipping the
children of any element with `contenteditable="false"`.  The walks are
rendered below as the equivalent structural depth-first recursion, with
the loop's early exits (`done`, `foundEnd`) expressed as short-circuiting
results.
-/

mutual
/-- The `saveSelection` walk (selectionContext.js lines 387–405) over one
node: accumulate text lengths until the range's start container (the text
node with identity `target`) is found; on finding it, the final `start`
offset is the accumulated count plus the range's `startOffset`.
`Sum.inl` is the `done` case, `Sum.inr` carries the running count. -/
def saveN (target tOff : Nat) (n : DNode) (start : Nat) : Sum Nat Nat :=
  match n with
  | .text j s => if j = target then Sum.inl (start + tOff) else Sum.inr (start + s.length)
  | .elem j t a cs =>
    if ceOff (.elem j t a cs) then Sum.inr start
    else saveF target tOff cs start
/-- The `saveSelection` walk over a sibling list. -/
def saveF (target tOff : Nat) (l : List DNode) (start : Nat) : Sum Nat Nat :=
  match l with
  | [] => Sum.inr start
  | c :: cs =>
    match saveN target tOff c start with
    | Sum.inl r => Sum.inl r
    | Sum.inr s' => saveF target tOff cs s'
end

/-- Result of the save walk: the `start` field of the saved selection.
When the start container is never reached (the loop drains its stack),
`start` is left at the accumulated total, exactly as in the source. -/
def saveWalk (container : DNode) (target tOff : Nat) : Nat :=
  match saveN target tOff container 0 with
  | Sum.inl r => r
  | Sum.inr r => r

/-- A boundary point of a (re)stored range: a text-node identity together
with a character offset inside it. -/
structure RangePoint where
  node : Nat
  off : Nat
deriving Repr, DecidableEq

/-- The mutable locals of the `restoreSelection` walk
(selectionContext.js lines 429–469). -/
structure RestoreSt where
  charIndex : Nat
  rangeStart : Option RangePoint
  rangeEnd : Option RangePoint
deriving Repr, DecidableEq

mutual
/-- One node of the `restoreSelection` walk (selectionContext.js lines
439–469).  `rangeEnd.isSome` is `foundEnd` (the loop guard),
`rangeStart.isSome` is `foundStart`.  The three conditionals reproduce,
in order: the normal start match, the `start === end` cursor edge case,
and the (inclusive-upper-bound) end match. -/
def restoreN (sv ev : Nat) (n : DNode) (st : RestoreSt) : RestoreSt :=
  if st.rangeEnd.isSome then st
  else
    match n with
    | .text j s =>
      let next := st.charIndex + s.length
      let st1 :=
        if st.rangeStart.isNone ∧ sv ≥ st.charIndex ∧ sv < next then
          { st with rangeStart := some ⟨j, sv - st.charIndex⟩ }
        else st
      let st2 :=
        if st1.rangeStart.isNone ∧ next = ev then
          { st1 with rangeStart := some ⟨j, ev - st1.charIndex⟩ }
        else st1
      let st3 :=
        if st2.rangeStart.isSome ∧ ev ≥ st2.charIndex ∧ ev ≤ next then
          { st2 with rangeEnd := some ⟨j, ev - st2.charIndex⟩ }
        else st2
      { st3 with charIndex := next }
    | .elem j t a cs =>
      if ceOff (.elem j t a cs) then st
      else restoreF sv ev cs st
/-- The `restoreSelection` walk over a sibling list. -/
def restoreF (sv ev : Nat) (l : List DNode) (st : RestoreSt) : RestoreSt :=
  match l with
  | [] => st
  | c :: cs => restoreF sv ev cs (restoreN sv ev c st)
end

/-- The `restoreSelection` walk from the saved container with offsets
`sv`/`ev` (the saved `start` and `end`). -/
def restoreWalk (container : DNode) (sv ev : Nat) : RestoreSt :=
  restoreN sv ev container ⟨0, none, none⟩

/-- The text-node step of the restore walk, exactly the `.text` case of
`restoreN` (including the `foundEnd` loop guard), factored so the walk can
be reasoned about as a fold over the visited text leaves. -/
def restoreLeaf (sv ev j : Nat) (s : String) (st : RestoreSt) : RestoreSt :=
  if st.rangeEnd.isSome then st
  else
    let next := st.charIndex + s.length
    let st1 :=
      if st.rangeStart.isNone ∧ sv ≥ st.charIndex ∧ sv < next then
        { st with rangeStart := some ⟨j, sv - st.charIndex⟩ }
      else st
    let st2 :=
      if st1.rangeStart.isNone ∧ next = ev then
        { st1 with rangeStart := some ⟨j, ev - st1.charIndex⟩ }
      else st1
    let st3 :=
      if st2.rangeStart.isSome ∧ ev ≥ st2.charIndex ∧ ev ≤ next then
        { st2 with rangeEnd := some ⟨j, ev - st2.charIndex⟩ }
      else st2
    { st3 with charIndex := next }

/-- The restore walk as a fold over a text-leaf list. -/
def restoreLeaves (sv ev : Nat) : List (Nat × String) → RestoreSt → RestoreSt
  | [], st => st
  | (j, s) :: rest, st => restoreLeaves sv ev rest (restoreLeaf sv ev j s st)

mutual
/-- All text leaves of a node's subtree, in document order. -/
def allLeavesN : DNode → List (Nat × String)
  | .text i s => [(i, s)]
  | .elem _ _ _ cs => allLeavesF cs
def allLeavesF : List DNode → List (Nat × String)
  | [] => []
  | c :: cs => allLeavesN c ++ allLeavesF cs
end

mutual
/-- The text leaves the selection walks visit: document order, skipping
every subtree rooted at a `contenteditable="false"` element. -/
def edLeavesN : DNode → List (Nat × String)
  | .text i s => [(i, s)]
  | .elem j t a cs => if ceOff (.elem j t a cs) then [] else edLeavesF cs
def edLeavesF : List DNode → List (Nat × String)
  | [] => []
  | c :: cs => edLeavesN c ++ edLeavesF cs
end

/-- Concatenated data of a leaf list. -/
def leavesText (l : List (Nat × String)) : String :=
  (l.map Prod.snd).foldr (· ++ ·) ""

/-- The editable text content of a container — the `T` of the claim:
text inside `contenteditable="false"` subtrees is not counted. -/
def editableText (container : DNode) : String := leavesText (edLeavesN container)

/-- JavaScript `T.slice(a, b)` on character positions. -/
def strSlice (s : String) (a b : Nat) : String :=
  String.mk ((s.toList.drop a).take (b - a))

/-- Global character offset of a boundary point within a leaf list: the
data lengths of the leaves before the point's node, plus the offset. -/
def offsetIn : List (Nat × String) → Nat → Nat → Option Nat
  | [], _, _ => none
  | (i, s) :: rest, j, off =>
    if i = j then some off else (offsetIn rest j off).map (s.length + ·)

/-- DOM `Range.toString()` between two boundary points of a container:
the document text (all text nodes, editable or not) between the two
points. -/
def rangeString (container : DNode) (p q : RangePoint) : Option String :=
  match offsetIn (allLeavesN container) p.node p.off,
        offsetIn (allLeavesN container) q.node q.off with
  | some a, some b => some (strSlice (leavesText (allLeavesN container)) a b)
  | _, _ => none

/-- The object `saveSelection` returns (selectionContext.js lines
407–414), for a range with start point `p` and end point `q` inside
`container`: `start` from the walk, `end` as `start` plus the length of
`range.toString()`.  (The `endContainer` reference is also stored by the
source; it is only consumed by `restoreSelection`'s fallback, which the
theorems below show is not reached under their hypotheses, and which the
counterexample does not depend on.) -/
def saveSelection (container : DNode) (p q : RangePoint) : Nat × Nat :=
  let start := saveWalk container p.node p.off
  (start, start + ((rangeString container p q).getD "").length)

/-- Every `contenteditable="false"` element of the forest has empty text
content (the hypothesis under which DOM `Range.toString()` agrees with
the editable-text coordinates the walks use). -/
def noNonEdTextF (l : List DNode) : Bool :=
  (elemsF l).all fun e => !ceOff e || (textContent e == "")

/- ................................................................
   Section 4: undoManager.js and richTextEditor.js
   ................................................................ -/

/-- A `(document, selection)` snapshot as `createState` builds it
(undoManager.js lines 155–163): `editor.getData(true, true)` serialized
output plus a saved selection. -/
structure UndoState where
  data : String
  selection : Option (Nat × Nat)
deriving Repr, DecidableEq

/-- What `createState` reads off the editor. -/
structure EditorSnapshot where
  data : String
  selection : Option (Nat × Nat)
deriving Repr, DecidableEq

/-- The undo manager's mutable fields (undoManager.js lines 27–61).
`debouncePending` models a scheduled-but-not-yet-fired run of the
debounced saver. -/
structure UndoManagerState where
  currState : Option UndoState
  undoStates : List UndoState
  redoStates : List UndoState
  isRestoring : Bool
  isTorndown : Bool
  debouncePending : Bool
deriving Repr, DecidableEq

/-- `createState` (undoManager.js lines 155–163). -/
def createState (ed : EditorSnapshot) : UndoState := ⟨ed.data, ed.selection⟩

/-- `saveState` (undoManager.js lines 171–185): with no current state, the
new snapshot just becomes current; otherwise the old current state is
pushed to the undo stack and replaced exactly when the serialized data
differs. -/
def saveState (m : UndoManagerState) (ed : EditorSnapshot) : UndoManagerState :=
  let newState := createState ed
  match m.currState with
  | none => { m with currState := some newState }
  | some c =>
    if newState.data ≠ c.data then
      { m with undoStates := m.undoStates ++ [c], currState := some newState }
    else m

/-- The `editor.onChange` override installed by the `UndoManager`
constructor (undoManager.js lines 65–83).  Returns the state after the
notification together with whether `manager.defaultOnChange` (the
editor's original `onChange`) was invoked. -/
def onChangeStep (m : UndoManagerState) (ty : Option String) (ed : EditorSnapshot) :
    UndoManagerState × Bool :=
  if !m.isRestoring then
    if ty = some "updateAsyncImage" then (m, false)
    else if m.currState.isNone then (saveState m ed, true)
    else ({ m with debouncePending := true }, true)
  else ({ m with isRestoring := false }, true)

/-- The debounced saver firing after the quiet period (undoManager.js
lines 57–61): runs `saveState` unless the manager was torn down. -/
def debounceFire (m : UndoManagerState) (ed : EditorSnapshot) : UndoManagerState :=
  if m.debouncePending && !m.isTorndown then
    saveState { m with debouncePending := false } ed
  else { m with debouncePending := false }

/-- `module.prototype.updateAsyncImage`'s change notification
(richTextEditor.js lines 2807–2810): the public method always ends in
`this.onChange('updateAsyncImage')`, which — every editor constructs an
`UndoManager` over itself (richTextEditor.js lines 379–391) — is the
override above. -/
def updateAsyncImageNotify (m : UndoManagerState) (ed : EditorSnapshot) :
    UndoManagerState × Bool :=
  onChangeStep m (some "updateAsyncImage") ed

/-- A JavaScript argument as `insertAsyncImage` discriminates it:
`!source` (falsiness) and `typeof source === 'string'`. -/
inductive JSArg where
  | noVal
  | strVal (s : String)
  | otherTruthy
  | otherFalsy
deriving Repr, DecidableEq

def argFalsy : JSArg → Bool
  | .noVal => true
  | .strVal s => s = ""
  | .otherTruthy => false
  | .otherFalsy => true

def argIsString : JSArg → Bool
  | .strVal _ => true
  | _ => false

/-- Externally visible effects of one `insertAsyncImage` call. -/
structure InsertOutcome where
  failedCalls : Nat
  insertedMedia : Bool
  trackerAdded : Bool
deriving Repr, DecidableEq

/-- `insertAsyncImage` (richTextEditor.js lines 1960–2015): with a falsy
source and a file, the image is added from the file; with a string
source, from the source; otherwise `onAsyncImageFailed` is called once
and the function returns having inserted nothing and registered no
media-tracker entry.  (`addImageBySource` registers the tracker entry and
inserts the figure; both file sub-paths end there.) -/
def insertAsyncImage (source : JSArg) (file : Bool) : InsertOutcome :=
  if argFalsy source && file then ⟨0, true, true⟩
  else if argIsString source then ⟨0, true, true⟩
  else ⟨1, false, false⟩

/-- `TEXT_BLOCKS` (richTextEditor.js line 33). -/
def TEXT_BLOCKS : List String := ["P", "H2", "BLOCKQUOTE", "UL", "OL", "PRE"]

/-- The run test of `doBlock`'s blockquote case (richTextEditor.js line
1258): `_.contains(TEXT_BLOCKS, node.nodeName.toUpperCase())`. -/
def isTextBlockB (n : DNode) : Bool := TEXT_BLOCKS.contains (strUpper (nodeTag n))

/-- The stack-building fold of `doBlock`'s blockquote case
(richTextEditor.js lines 1252–1264): consecutive text blocks accumulate
into `currStack`; any other node flushes the current stack (possibly
empty) into `textBlockStacks` and resets it. -/
def stacksFold : List DNode → List (List DNode) → List DNode →
    List (List DNode) × List DNode
  | [], sts, curr => (sts, curr)
  | n :: rest, sts, curr =>
    if isTextBlockB n then stacksFold rest sts (curr ++ [n])
    else stacksFold rest (sts ++ [curr]) []

/-- The final stack list (richTextEditor.js lines 1266–1268): a trailing
non-empty `currStack` is appended. -/
def textBlockStacks (ns : List DNode) : List (List DNode) :=
  let (sts, curr) := stacksFold ns [] []
  if curr.isEmpty then sts else sts ++ [curr]

/-- jQuery `$(stack).wrapAll(document.createElement('blockquote'))` on a
run of consecutive root children (richTextEditor.js lines 1270–1272): on
an empty set nothing happens; otherwise the wrapper element takes the
position of the first member and all members move inside it.  `wid` is
the identity of the freshly created wrapper. -/
def wrapAllBQ (cs : List DNode) (stack : List DNode) (wid : Nat) : List DNode :=
  match stack with
  | [] => cs
  | first :: _ =>
    cs.filterMap fun n =>
      if nodeId n = nodeId first then some (.elem wid "BLOCKQUOTE" [] stack)
      else if (stack.map nodeId).contains (nodeId n) then none
      else some n

/-- Sequential application of `wrapAll` to every stack
(richTextEditor.js lines 1270–1272), numbering the created wrappers from
`wid`. -/
def wrapStacks (cs : List DNode) (sts : List (List DNode)) (wid : Nat) : List DNode :=
  match sts with
  | [] => cs
  | st :: rest => wrapStacks (wrapAllBQ cs st wid) rest (wid + 1)

/-- The blockquote run-wrapping of `applyCommand`/`doBlock`
(richTextEditor.js lines 1250–1272) applied to the selection's root
elements. -/
def doBlockquoteWrap (rootEls : List DNode) : List DNode :=
  wrapStacks rootEls (textBlockStacks rootEls) (maxIdF rootEls + 1)

/-- The same transformation as the specification states it: each maximal
run of consecutive text-type blocks is wrapped in its own blockquote,
splitting at every non-text-block boundary.  (Definition written from the
spec's words, for comparison with `doBlockquoteWrap` above.) -/
def wrapRunsSpec (wid : Nat) : List DNode → List DNode
  | [] => []
  | n :: rest =>
    if isTextBlockB n then
      .elem wid "BLOCKQUOTE" [] (n :: rest.takeWhile isTextBlockB) ::
        wrapRunsSpec (wid + 1) (rest.dropWhile isTextBlockB)
    else n :: wrapRunsSpec wid rest
termination_by l => l.length
decreasing_by
  all_goals simp_wf
  all_goals try exact Nat.lt_succ_of_le (List.dropWhile_sublist _).length_le


/-- `textBlockStacks` generalized over the running `currStack`, for
reasoning about the fold. -/
def textBlockStacksFrom (ns : List DNode) (curr : List DNode) : List (List DNode) :=
  let (sts, c) := stacksFold ns [] curr
  if c.isEmpty then sts else sts ++ [c]

/-- The combined effect of building the stacks from a pending run `curr`
and then wrapping each one: the pending run grows over consecutive text
blocks; a non-text-block node flushes it (wrapping it in a blockquote
placed before the node — or nothing, when the pending run is empty — and
consuming one wrapper id); a trailing non-empty run is wrapped at the
end.  `wrapStacks cs (textBlockStacksFrom l curr) wid` computes exactly
this (proved below). -/
def wrapRunsPend (wid : Nat) (curr : List DNode) : List DNode → List DNode
  | [] => if curr.isEmpty then [] else [.elem wid "BLOCKQUOTE" [] curr]
  | n :: rest =>
    if isTextBlockB n then wrapRunsPend wid (curr ++ [n]) rest
    else
      (if curr.isEmpty then [] else [.elem wid "BLOCKQUOTE" [] curr]) ++
        n :: wrapRunsPend (wid + 1) [] rest

mutual
/-- Erase node identities (for comparing tree shapes irrespective of the
ids this embedding assigns to freshly created elements). -/
def eraseIdN : DNode → DNode
  | .text _ s => .text 0 s
  | .elem _ t a cs => .elem 0 t a (eraseIdF cs)
def eraseIdF : List DNode → List DNode
  | [] => []
  | c :: cs => eraseIdN c :: eraseIdF cs
end

/-- A subtree containing no media-tagged element at all. -/
def mediaFree (n : DNode) : Bool := (elemsN n).all (fun e => !isMediaB e)

/- ................................................................
   Theorems
   ................................................................ -/

/- ---------- C9 ---------- -/

/-- C9: calling `insertAsyncImage` with neither a usable source string nor
a file invokes the `onAsyncImageFailed` callback exactly once and returns
(the embedding is a total function, so no exception), inserting no element
into the document and creating no media-tracker entry. -/
theorem c9_insert_async_image_failure (source : JSArg) (file : Bool)
    (hs : argIsString source = false) (hf : file = false) :
    insertAsyncImage source file = ⟨1, false, false⟩ := by
  simp [insertAsyncImage, hs, hf]

/-- Witness for C9 at `source = noVal`, `file = false`. -/
theorem c9_insert_async_image_failure_witness :
    argIsString JSArg.noVal = false ∧ insertAsyncImage JSArg.noVal false = ⟨1, false, false⟩ :=
  ⟨rfl, c9_insert_async_image_failure JSArg.noVal false rfl rfl⟩

/- ---------- C10 ---------- -/

/-- C10: a change notification carrying the type `updateAsyncImage` — as
emitted by the public `updateAsyncImage` method — is a complete no-op at
the notification layer when the manager is not restoring: the undo stack,
redo stack, checkpoint and pending-debounce flag are all unchanged (the
returned state is the input state), and the editor's original `onChange`
is not invoked (second component `false`), so the host-configured
`onChange` callback never runs for async image source updates. -/
theorem c10_update_async_image_noop (m : UndoManagerState) (ed : EditorSnapshot)
    (h : m.isRestoring = false) :
    updateAsyncImageNotify m ed = (m, false) := by
  simp [updateAsyncImageNotify, onChangeStep, h]

/-- Witness for C10 at a concrete non-restoring manager state. -/
theorem c10_update_async_image_noop_witness :
    (UndoManagerState.mk (some ⟨"a", none⟩) [] [] false false false).isRestoring = false ∧
    updateAsyncImageNotify (UndoManagerState.mk (some ⟨"a", none⟩) [] [] false false false)
        ⟨"b", none⟩ =
      (UndoManagerState.mk (some ⟨"a", none⟩) [] [] false false false, false) :=
  ⟨rfl, c10_update_async_image_noop _ _ rfl⟩

/- ---------- C4 ---------- -/

/-- C4: for document-change notifications handled by the undo manager (not
restoring, not the excluded `updateAsyncImage` type): the very first
notification records the current `(document, selection)` pair as the
checkpoint immediately — no debounce is scheduled and the undo stack is
untouched; every later notification only schedules the debounced capture;
a capture (`saveState`) with an existing checkpoint pushes the old
checkpoint and replaces it exactly when the newly serialized content
differs, so a capture whose serialized content equals the checkpoint's
never creates a new undo entry; and the debounced capture, when it fires
on a live manager, is exactly `saveState`. -/
theorem c4_checkpoint_discipline (m : UndoManagerState) (ty : Option String)
    (ed : EditorSnapshot) (hr : m.isRestoring = false)
    (hty : ty ≠ some "updateAsyncImage") :
    (m.currState = none →
      onChangeStep m ty ed = ({ m with currState := some (createState ed) }, true)) ∧
    (∀ c, m.currState = some c →
      onChangeStep m ty ed = ({ m with debouncePending := true }, true) ∧
      ((createState ed).data = c.data → saveState m ed = m) ∧
      ((createState ed).data ≠ c.data →
        saveState m ed =
          { m with undoStates := m.undoStates ++ [c], currState := some (createState ed) })) ∧
    (m.debouncePending = true → m.isTorndown = false →
      debounceFire m ed = saveState { m with debouncePending := false } ed) := by
  refine ⟨?_, ?_, ?_⟩
  · intro hc
    simp [onChangeStep, hr, hty, saveState, hc]
  · intro c hc
    refine ⟨?_, ?_, ?_⟩
    · simp [onChangeStep, hr, hty, hc]
    · intro hd; simp [saveState, hc, hd]
    · intro hd; simp [saveState, hc, hd]
  · intro hp ht
    simp [debounceFire, hp, ht]

/-- Witness for C4 at a concrete manager state with a checkpoint. -/
theorem c4_checkpoint_discipline_witness :
    (UndoManagerState.mk (some ⟨"a", none⟩) [] [] false false true).isRestoring = false ∧
    (none : Option String) ≠ some "updateAsyncImage" ∧
    ((UndoManagerState.mk (some ⟨"a", none⟩) [] [] false false true).currState = none →
      onChangeStep (UndoManagerState.mk (some ⟨"a", none⟩) [] [] false false true) none ⟨"b", none⟩ =
        ({ UndoManagerState.mk (some ⟨"a", none⟩) [] [] false false true with
            currState := some (createState ⟨"b", none⟩) }, true)) := by
  refine ⟨rfl, by decide, ?_⟩
  exact (c4_checkpoint_discipline (UndoManagerState.mk (some ⟨"a", none⟩) [] [] false false true)
    none ⟨"b", none⟩ rfl (by decide)).1

/- ---------- C3 ---------- -/

/-- C3 (evaluation at the divergence): under the default editor filter
rules — `a.href` protocols restricted to `http`/`https`/`mailto` —
cleaning `<a href="javascript:alert(1)">` does produce an `a` element
without its `href`, as the claim says; but cleaning `<a href="/relative">`
*also* drops the `href`: the protocol check tests
`attr_value_lc.indexOf(protocols[i]) === 0` against the prefixes
`http`, `https`, `mailto` and the pushed `__RELATIVE__` marker string,
none of which a bare relative reference starts with, so a bare relative
reference is not implicitly allowed, contradicting the claim. -/
theorem c3_protocol_filtering_eval :
    (clean_node defaultFilterRules
        (.elem 0 "BODY" [] [.elem 1 "A" [("href", "javascript:alert(1)")] []])).1 =
      [.elem 0 "A" [] []] ∧
    (clean_node defaultFilterRules
        (.elem 0 "BODY" [] [.elem 1 "A" [("href", "/relative")] []])).1 =
      [.elem 0 "A" [] []] := by
  constructor <;> decide

/- ---------- C8 ---------- -/

/-- C8 (evaluation at the divergence): `clean_node` is not side-effect
free on its configuration: cleaning a single `<a href="http://example.com">`
leaves the per-attribute protocols array for `a.href` with an extra
`__RELATIVE__` entry appended (`protocols.push(Sanitize.RELATIVE)` at
sanitize.js line 178 mutates the array held by the configuration), so the
configuration does not contain exactly the same entries as before the
call. -/
theorem c8_config_mutation_eval :
    (clean_node defaultFilterRules
        (.elem 0 "BODY" [] [.elem 1 "A" [("href", "http://example.com")] []])).2.protocols =
      [("a", [("href", ["http", "https", "mailto", "__RELATIVE__"])])] ∧
    ([("a", [("href", ["http", "https", "mailto", "__RELATIVE__"])])] :
        List (String × List (String × List String))) ≠ defaultFilterRules.protocols := by
  constructor
  · rfl
  · decide

/- ---------- C7: helper lemmas ---------- -/

theorem elemsF_append (a b : List DNode) : elemsF (a ++ b) = elemsF a ++ elemsF b := by
  induction a with
  | nil => simp [elemsF]
  | cons c cs ih => simp [elemsF, ih]

theorem idsF_append (a b : List DNode) : idsF (a ++ b) = idsF a ++ idsF b := by
  induction a with
  | nil => simp [idsF]
  | cons c cs ih => simp [idsF, ih]

theorem nodeId_mem_idsN (n : DNode) : nodeId n ∈ idsN n := by
  cases n <;> simp [nodeId, idsN]

theorem mem_idsF_of_mem {x : DNode} {l : List DNode} (h : x ∈ l) : nodeId x ∈ idsF l := by
  induction l with
  | nil => simp at h
  | cons c cs ih =>
    rcases List.mem_cons.mp h with h | h
    · subst h; simp [idsF]; left; exact nodeId_mem_idsN x
    · simp [idsF]; right; exact ih h

theorem le_foldr_max (xs : List Nat) (i : Nat) (h : i ∈ xs) : i ≤ xs.foldr max 0 := by
  induction xs with
  | nil => simp at h
  | cons x xs ih =>
    rcases List.mem_cons.mp h with h | h
    · subst h; simp [List.foldr]
    · simp [List.foldr]; right; exact ih h

theorem nodeId_le_maxIdF {x : DNode} {l : List DNode} (h : x ∈ l) : nodeId x ≤ maxIdF l :=
  le_foldr_max _ _ (mem_idsF_of_mem h)

theorem map_nodeId_nodup {l : List DNode} (h : uniqF l) : (l.map nodeId).Nodup := by
  induction l with
  | nil => simp
  | cons c cs ih =>
    unfold uniqF at h
    rw [idsF] at h
    rw [List.nodup_append] at h
    obtain ⟨h1, h2, h3⟩ := h
    simp only [List.map_cons, List.nodup_cons]
    constructor
    · intro hc
      rcases List.mem_map.mp hc with ⟨y, hy, hey⟩
      exact h3 (nodeId_mem_idsN c) (hey ▸ mem_idsF_of_mem hy)
    · exact ih h2

/- ---------- C7: stack building ---------- -/

theorem stacksFold_acc (l : List DNode) :
    ∀ sts curr, stacksFold l sts curr =
      (sts ++ (stacksFold l [] curr).1, (stacksFold l [] curr).2) := by
  induction l with
  | nil => intro sts curr; simp [stacksFold]
  | cons n rest ih =>
    intro sts curr
    by_cases h : isTextBlockB n = true
    · rw [stacksFold, if_pos h, stacksFold, if_pos h, ih]
    · rw [stacksFold, if_neg h, stacksFold, if_neg h, ih (sts ++ [curr])]
      rw [show ([] : List (List DNode)) ++ [curr] = [curr] from rfl] at *
      rw [ih [curr]]
      simp

theorem textBlockStacksFrom_text {n : DNode} (h : isTextBlockB n = true)
    (rest curr : List DNode) :
    textBlockStacksFrom (n :: rest) curr = textBlockStacksFrom rest (curr ++ [n]) := by
  unfold textBlockStacksFrom
  rw [stacksFold, if_pos h]

theorem textBlockStacksFrom_nontext {n : DNode} (h : isTextBlockB n = false)
    (rest curr : List DNode) :
    textBlockStacksFrom (n :: rest) curr = curr :: textBlockStacksFrom rest [] := by
  unfold textBlockStacksFrom
  rw [stacksFold, if_neg (by simp [h])]
  rw [show ([] : List (List DNode)) ++ [curr] = [curr] from rfl]
  rw [stacksFold_acc rest [curr]]
  by_cases hc : (stacksFold rest [] []).2.isEmpty <;> simp [hc]

theorem textBlockStacksFrom_nil (curr : List DNode) :
    textBlockStacksFrom [] curr = if curr.isEmpty then [] else [curr] := by
  simp [textBlockStacksFrom, stacksFold]

theorem textBlockStacks_eq_from (ns : List DNode) :
    textBlockStacks ns = textBlockStacksFrom ns [] := rfl

/-- Every member of every stack comes from the scanned list or the
pending run. -/
theorem textBlockStacksFrom_members (l : List DNode) :
    ∀ curr st, st ∈ textBlockStacksFrom l curr → ∀ x ∈ st, x ∈ curr ++ l := by
  induction l with
  | nil =>
    intro curr st hst x hx
    rw [textBlockStacksFrom_nil] at hst
    by_cases hc : curr.isEmpty <;> simp [hc] at hst
    subst hst; simp [hx]
  | cons n rest ih =>
    intro curr st hst x hx
    by_cases h : isTextBlockB n = true
    · rw [textBlockStacksFrom_text h] at hst
      have := ih (curr ++ [n]) st hst x hx
      simp at this ⊢
      tauto
    · rw [textBlockStacksFrom_nontext (by simpa using h)] at hst
      rcases List.mem_cons.mp hst with hst | hst
      · subst hst; simp [hx]
      · have := ih [] st hst x hx
        simp at this ⊢
        tauto

/- ---------- C7: wrapping ---------- -/

theorem filterMap_id_of_some {f : DNode → Option DNode} {l : List DNode}
    (h : ∀ a ∈ l, f a = some a) : l.filterMap f = l := by
  induction l with
  | nil => rfl
  | cons c cs ih =>
    rw [List.filterMap_cons, h c (by simp), ih (fun a ha => h a (by simp [ha]))]

theorem wrapAllBQ_cons {n : DNode} {st : List DNode} (cs : List DNode) (wid : Nat)
    (h : st = [] ∨ nodeId n ∉ st.map nodeId) :
    wrapAllBQ (n :: cs) st wid = n :: wrapAllBQ cs st wid := by
  cases st with
  | nil => rfl
  | cons first rest =>
    have hn : nodeId n ∉ (first :: rest).map nodeId := by
      rcases h with h | h
      · exact absurd h (by simp)
      · exact h
    have h1 : ¬ nodeId n = nodeId first := fun he => hn (by simp [he])
    have h2 : ((first :: rest).map nodeId).contains (nodeId n) = false := by
      simpa using hn
    simp only [wrapAllBQ]
    rw [List.filterMap_cons, if_neg h1, h2]
    simp

theorem wrapAllBQ_front {curr l : List DNode} (wid : Nat) (hne : curr ≠ [])
    (hu : ((curr ++ l).map nodeId).Nodup) :
    wrapAllBQ (curr ++ l) curr wid = .elem wid "BLOCKQUOTE" [] curr :: l := by
  match curr, hne with
  | first :: crest, _ =>
    have hu' := hu
    simp only [List.cons_append, List.map_cons, List.nodup_cons, List.map_append,
      List.nodup_append] at hu'
    have hfirst := hu'.1
    have hdisj := hu'.2.2.2
    have hfc : nodeId first ∉ crest.map nodeId := fun hc => hfirst (List.mem_append_left _ hc)
    have hfl : nodeId first ∉ l.map nodeId := fun hc => hfirst (List.mem_append_right _ hc)
    simp only [wrapAllBQ]
    rw [List.cons_append, List.filterMap_cons, if_pos rfl, List.filterMap_append]
    have hcrest : List.filterMap
        (fun n => if nodeId n = nodeId first then
            some (DNode.elem wid "BLOCKQUOTE" [] (first :: crest))
          else if ((first :: crest).map nodeId).contains (nodeId n) then none else some n)
        crest = [] := by
      rw [List.filterMap_eq_nil_iff]
      intro a ha
      have hne1 : ¬ nodeId a = nodeId first :=
        fun he => hfc (he ▸ List.mem_map.mpr ⟨a, ha, rfl⟩)
      have hmem : ((first :: crest).map nodeId).contains (nodeId a) = true := by
        have : nodeId a ∈ (first :: crest).map nodeId := by
          simp only [List.map_cons, List.mem_cons]
          exact Or.inr (List.mem_map.mpr ⟨a, ha, rfl⟩)
        simpa using this
      simp only [if_neg hne1, hmem]
      rfl
    have hl : List.filterMap
        (fun n => if nodeId n = nodeId first then
            some (DNode.elem wid "BLOCKQUOTE" [] (first :: crest))
          else if ((first :: crest).map nodeId).contains (nodeId n) then none else some n)
        l = l := by
      apply filterMap_id_of_some
      intro a ha
      have hal : nodeId a ∈ l.map nodeId := List.mem_map.mpr ⟨a, ha, rfl⟩
      have hnotin : nodeId a ∉ (first :: crest).map nodeId := by
        simp only [List.map_cons, List.mem_cons]
        rintro (he | hc)
        · exact hfl (he ▸ hal)
        · exact (List.disjoint_right.mp hdisj) hal hc
      have hne1 : ¬ nodeId a = nodeId first := fun he => hnotin (by simp [he])
      have h2 : ((first :: crest).map nodeId).contains (nodeId a) = false := by
        simpa using hnotin
      simp only [if_neg hne1, h2]
      rfl
    rw [hcrest, hl]
    rfl

theorem wrapAllBQ_self {curr : List DNode} (wid : Nat) (hne : curr ≠ [])
    (hu : (curr.map nodeId).Nodup) :
    wrapAllBQ curr curr wid = [.elem wid "BLOCKQUOTE" [] curr] := by
  have := @wrapAllBQ_front curr [] wid hne (by simpa using hu)
  simpa using this

theorem wrapStacks_cons {n : DNode} (cs : List DNode) (sts : List (List DNode)) (wid : Nat)
    (h : ∀ st ∈ sts, nodeId n ∉ st.map nodeId) :
    wrapStacks (n :: cs) sts wid = n :: wrapStacks cs sts wid := by
  induction sts generalizing cs wid with
  | nil => rfl
  | cons st rest ih =>
    show wrapStacks (wrapAllBQ (n :: cs) st wid) rest (wid + 1) = _
    rw [wrapAllBQ_cons cs wid (Or.inr (h st (by simp)))]
    exact ih _ _ (fun st' hst' => h st' (by simp [hst']))

theorem wrapStacks_step (cs st : List DNode) (sts : List (List DNode)) (wid : Nat) :
    wrapStacks cs (st :: sts) wid = wrapStacks (wrapAllBQ cs st wid) sts (wid + 1) := rfl

theorem wrapAllBQ_nil (cs : List DNode) (wid : Nat) : wrapAllBQ cs [] wid = cs := rfl

/-- The central characterization: building the stacks from pending run
`curr` over `l` and wrapping them all equals the pending-run wrapping. -/
theorem wrapStacks_textBlockStacksFrom (l : List DNode) :
    ∀ (curr : List DNode) (wid : Nat),
      (((curr ++ l).map nodeId).Nodup) →
      (∀ x ∈ curr ++ l, nodeId x < wid) →
      wrapStacks (curr ++ l) (textBlockStacksFrom l curr) wid = wrapRunsPend wid curr l := by
  induction l with
  | nil =>
    intro curr wid hu hfr
    rw [textBlockStacksFrom_nil, wrapRunsPend]
    by_cases hc : curr.isEmpty
    · have : curr = [] := by simpa using hc
      subst this
      rfl
    · have hne : curr ≠ [] := by simpa using hc
      rw [if_neg (by simpa using hc), if_neg (by simpa using hc), wrapStacks_step]
      rw [wrapAllBQ_front wid hne hu]
      rfl
  | cons n rest ih =>
    intro curr wid hu hfr
    by_cases h : isTextBlockB n = true
    · rw [textBlockStacksFrom_text h, wrapRunsPend, if_pos h]
      have hre : curr ++ n :: rest = (curr ++ [n]) ++ rest := by simp
      rw [hre]
      refine ih (curr ++ [n]) wid ?_ ?_
      · rw [← hre]; exact hu
      · intro x hx
        refine hfr x ?_
        rw [hre]; exact hx
    · have hmem : ∀ st ∈ textBlockStacksFrom rest [], ∀ y ∈ st, y ∈ rest := by
        intro st hst y hy
        have := textBlockStacksFrom_members rest [] st hst y hy
        simpa using this
      rw [textBlockStacksFrom_nontext (by simpa using h), wrapRunsPend, if_neg (by simp [h])]
      by_cases hc : curr.isEmpty
      · have hcc : curr = [] := by simpa using hc
        subst hcc
        rw [List.nil_append] at hu hfr ⊢
        have hu2 : nodeId n ∉ rest.map nodeId ∧ (rest.map nodeId).Nodup := by
          rw [List.map_cons, List.nodup_cons] at hu
          exact hu
        have hmn : ∀ st ∈ textBlockStacksFrom rest [], nodeId n ∉ st.map nodeId := by
          intro st hst hcontra
          rcases List.mem_map.mp hcontra with ⟨y, hy, hye⟩
          exact hu2.1 (hye ▸ List.mem_map.mpr ⟨y, hmem st hst y hy, rfl⟩)
        have h1 : ((([] : List DNode) ++ rest).map nodeId).Nodup := by
          rw [List.nil_append]; exact hu2.2
        have h2 : ∀ x ∈ ([] : List DNode) ++ rest, nodeId x < wid + 1 := by
          intro x hx
          rw [List.nil_append] at hx
          exact Nat.lt_succ_of_lt (hfr x (by simp [hx]))
        have hrest := ih [] (wid + 1) h1 h2
        rw [List.nil_append] at hrest
        rw [wrapStacks_step, wrapAllBQ_nil, wrapStacks_cons rest _ (wid + 1) hmn, hrest]
        simp
      · have hne : curr ≠ [] := by simpa using hc
        rw [if_neg (by simpa using hc), wrapStacks_step, wrapAllBQ_front wid hne hu]
        have hu' := hu
        rw [List.map_append, List.nodup_append, List.map_cons, List.nodup_cons] at hu'
        have hmn : ∀ st ∈ textBlockStacksFrom rest [], nodeId n ∉ st.map nodeId := by
          intro st hst hcontra
          rcases List.mem_map.mp hcontra with ⟨y, hy, hye⟩
          exact hu'.2.1.1 (hye ▸ List.mem_map.mpr ⟨y, hmem st hst y hy, rfl⟩)
        have hmbq : ∀ st ∈ textBlockStacksFrom rest [],
            nodeId (DNode.elem wid "BLOCKQUOTE" [] curr) ∉ st.map nodeId := by
          intro st hst hcontra
          rcases List.mem_map.mp hcontra with ⟨y, hy, hye⟩
          have hlt := hfr y (by simp [hmem st hst y hy])
          have hyw : nodeId y = wid := hye
          omega
        have h1 : ((([] : List DNode) ++ rest).map nodeId).Nodup := by
          rw [List.nil_append]; exact hu'.2.1.2
        have h2 : ∀ x ∈ ([] : List DNode) ++ rest, nodeId x < wid + 1 := by
          intro x hx
          rw [List.nil_append] at hx
          exact Nat.lt_succ_of_lt (hfr x (by simp [hx]))
        have hrest := ih [] (wid + 1) h1 h2
        rw [List.nil_append] at hrest
        rw [wrapStacks_cons _ _ _ hmbq, wrapStacks_cons _ _ _ hmn, hrest]
        simp

theorem eraseIdF_append (a b : List DNode) :
    eraseIdF (a ++ b) = eraseIdF a ++ eraseIdF b := by
  induction a with
  | nil => rfl
  | cons c cs ih => simp [eraseIdF, ih]

theorem wrapRunsPend_absorb (r : List DNode) :
    ∀ curr wid l', (∀ x ∈ r, isTextBlockB x = true) →
      wrapRunsPend wid curr (r ++ l') = wrapRunsPend wid (curr ++ r) l' := by
  induction r with
  | nil => intro curr wid l' _; simp
  | cons x xs ih =>
    intro curr wid l' hall
    rw [List.cons_append, wrapRunsPend, if_pos (hall x (by simp))]
    rw [ih (curr ++ [x]) wid l' (fun y hy => hall y (by simp [hy]))]
    simp

theorem dropWhile_head_false {p : DNode → Bool} :
    ∀ (l : List DNode) d rest2, l.dropWhile p = d :: rest2 → p d = false := by
  intro l
  induction l with
  | nil => intro d rest2 h; simp [List.dropWhile] at h
  | cons c cs ih =>
    intro d rest2 h
    rw [List.dropWhile_cons] at h
    by_cases hc : p c = true
    · rw [if_pos hc] at h
      exact ih d rest2 h
    · rw [if_neg hc] at h
      cases h
      simpa using hc

/-- The pending-run wrapping with no pending run produces, up to node
identities, the specification's maximal-run wrapping. -/
theorem pend_eq_spec (N : Nat) :
    ∀ l : List DNode, l.length ≤ N → ∀ wid w2,
      eraseIdF (wrapRunsPend wid [] l) = eraseIdF (wrapRunsSpec w2 l) := by
  induction N with
  | zero =>
    intro l hl wid w2
    have : l = [] := List.length_eq_zero.mp (Nat.le_zero.mp hl)
    subst this
    simp [wrapRunsPend, wrapRunsSpec]
  | succ N ih =>
    intro l hl wid w2
    match l with
    | [] => simp [wrapRunsPend, wrapRunsSpec]
    | n :: rest =>
      by_cases h : isTextBlockB n = true
      · rw [wrapRunsPend, if_pos h, wrapRunsSpec, if_pos h]
        have hsplit : rest = rest.takeWhile isTextBlockB ++ rest.dropWhile isTextBlockB :=
          (List.takeWhile_append_dropWhile _ _).symm
        rw [show wrapRunsPend wid ([] ++ [n]) rest = wrapRunsPend wid [n] rest from rfl]
        conv_lhs => rw [hsplit]
        rw [wrapRunsPend_absorb _ _ _ _ (fun x hx => List.mem_takeWhile_imp hx)]
        cases hdrop : rest.dropWhile isTextBlockB with
        | nil =>
          rw [wrapRunsPend]
          simp [wrapRunsSpec, eraseIdF, eraseIdN, eraseIdF_append]
        | cons d rest2 =>
          have hd : ¬ isTextBlockB d = true := by
            rw [dropWhile_head_false rest d rest2 hdrop]; simp
          rw [wrapRunsPend, wrapRunsSpec]
          simp only [if_neg hd]
          have hlen : rest2.length ≤ N := by
            have h1 : rest.length ≤ N := by simpa using Nat.le_of_succ_le_succ hl
            have h2 : (rest.dropWhile isTextBlockB).length ≤ rest.length :=
              (List.dropWhile_sublist _).length_le
            rw [hdrop] at h2
            simp at h2
            omega
          have hrec := ih rest2 hlen (wid + 1) (w2 + 1)
          simp [eraseIdF, eraseIdN, eraseIdF_append, hrec]
      · rw [wrapRunsPend, wrapRunsSpec]
        simp only [if_neg h]
        have hlen : rest.length ≤ N := by simpa using Nat.le_of_succ_le_succ hl
        have hrec := ih rest hlen (wid + 1) w2
        simp [eraseIdF, eraseIdN, hrec]


/- ---------- C7: media safety ---------- -/

/-- Mutual induction principle for nodes and forests. -/
theorem dnode_mutual_ind (P : DNode → Prop) (Q : List DNode → Prop)
    (ht : ∀ i s, P (.text i s))
    (he : ∀ i t a cs, Q cs → P (.elem i t a cs))
    (hnil : Q [])
    (hcons : ∀ c cs, P c → Q cs → Q (c :: cs)) :
    (∀ n, P n) ∧ (∀ l, Q l) := by
  have hn : ∀ n, P n := by
    intro n
    induction n using DNode.rec (motive_2 := Q) with
    | text i s => exact ht i s
    | elem i t a cs ih => exact he i t a cs ih
    | nil => exact hnil
    | cons c cs ih1 ih2 => exact hcons c cs ih1 ih2
  refine ⟨hn, ?_⟩
  intro l
  induction l with
  | nil => exact hnil
  | cons c cs ih => exact hcons c cs (hn c) ih

theorem elemsN_trans : ∀ (x b : DNode), b ∈ elemsN x → ∀ e ∈ elemsN b, e ∈ elemsN x := by
  have := dnode_mutual_ind
    (fun x => ∀ b ∈ elemsN x, ∀ e ∈ elemsN b, e ∈ elemsN x)
    (fun l => ∀ b ∈ elemsF l, ∀ e ∈ elemsN b, e ∈ elemsF l)
    (by intro i s b hb; simp [elemsN] at hb)
    (by
      intro i t a cs ih b hb e he
      rw [elemsN] at hb ⊢
      rcases List.mem_cons.mp hb with hb | hb
      · subst hb
        rw [elemsN] at he
        exact he
      · exact List.mem_cons.mpr (Or.inr (ih b hb e he)))
    (by intro b hb; simp [elemsF] at hb)
    (by
      intro c cs ihc ihcs b hb e he
      rw [elemsF] at hb ⊢
      rcases List.mem_append.mp hb with hb | hb
      · exact List.mem_append.mpr (Or.inl (ihc b hb e he))
      · exact List.mem_append.mpr (Or.inr (ihcs b hb e he)))
  exact this.1

theorem elemsF_decompose {b : DNode} {l : List DNode} (h : b ∈ elemsF l) :
    ∃ x ∈ l, b ∈ elemsN x := by
  induction l with
  | nil => simp [elemsF] at h
  | cons c cs ih =>
    rw [elemsF] at h
    rcases List.mem_append.mp h with h | h
    · exact ⟨c, by simp, h⟩
    · rcases ih h with ⟨x, hx, hb⟩
      exact ⟨x, by simp [hx], hb⟩

theorem descElems_subset_elemsN {b : DNode} : ∀ e ∈ descElems b, e ∈ elemsN b := by
  intro e he
  cases b with
  | text i s => simp [descElems] at he
  | elem i t a cs =>
    rw [elemsN]
    exact List.mem_cons.mpr (Or.inr (by simpa [descElems] using he))

theorem mediaFree_desc {x b : DNode} (hm : mediaFree x = true) (hb : b ∈ elemsN x) :
    (descElems b).all (fun e => !isMediaB e) = true := by
  rw [List.all_eq_true]
  intro e he
  have : e ∈ elemsN x := elemsN_trans x b hb e (descElems_subset_elemsN e he)
  exact (List.all_eq_true.mp hm) e this

theorem pend_media :
    ∀ (l curr : List DNode) (wid : Nat),
      (∀ x ∈ curr, mediaFree x = true) →
      (∀ x ∈ l, isTextBlockB x = true → mediaFree x = true) →
      (∀ b ∈ elemsF l, strUpper (nodeTag b) = "BLOCKQUOTE" →
        (descElems b).all (fun e => !isMediaB e) = true) →
      ∀ b ∈ elemsF (wrapRunsPend wid curr l), strUpper (nodeTag b) = "BLOCKQUOTE" →
        (descElems b).all (fun e => !isMediaB e) = true := by
  intro l
  induction l with
  | nil =>
    intro curr wid hc _ _ b hb htag
    rw [wrapRunsPend] at hb
    by_cases hcc : curr.isEmpty
    · simp [hcc, elemsF] at hb
    · rw [if_neg (by simpa using hcc)] at hb
      rw [elemsF, elemsN, elemsF] at hb
      simp only [List.append_nil] at hb
      rcases List.mem_cons.mp hb with hb | hb
      · subst hb
        rw [List.all_eq_true]
        intro e he
        simp only [descElems] at he
        rcases elemsF_decompose he with ⟨x, hx, hex⟩
        exact (List.all_eq_true.mp (hc x hx)) e hex
      · rcases elemsF_decompose hb with ⟨x, hx, hbx⟩
        exact mediaFree_desc (hc x hx) hbx
  | cons n rest ih =>
    intro curr wid hc hl1 hl2 b hb htag
    rw [wrapRunsPend] at hb
    by_cases h : isTextBlockB n = true
    · rw [if_pos h] at hb
      refine ih (curr ++ [n]) wid ?_ ?_ ?_ b hb htag
      · intro x hx
        rcases List.mem_append.mp hx with hx | hx
        · exact hc x hx
        · have : x = n := by simpa using hx
          subst this
          exact hl1 x (by simp) h
      · intro x hx hxt
        exact hl1 x (by simp [hx]) hxt
      · intro x hx hxt
        exact hl2 x (by rw [elemsF]; exact List.mem_append.mpr (Or.inr hx)) hxt
    · rw [if_neg h] at hb
      rw [elemsF_append] at hb
      rcases List.mem_append.mp hb with hb | hb
      · by_cases hcc : curr.isEmpty
        · simp [hcc, elemsF] at hb
        · rw [if_neg (by simpa using hcc)] at hb
          rw [elemsF, elemsN, elemsF] at hb
          simp only [List.append_nil] at hb
          rcases List.mem_cons.mp hb with hb | hb
          · subst hb
            rw [List.all_eq_true]
            intro e he
            simp only [descElems] at he
            rcases elemsF_decompose he with ⟨x, hx, hex⟩
            exact (List.all_eq_true.mp (hc x hx)) e hex
          · rcases elemsF_decompose hb with ⟨x, hx, hbx⟩
            exact mediaFree_desc (hc x hx) hbx
      · rw [elemsF] at hb
        rcases List.mem_append.mp hb with hb | hb
        · exact hl2 b (by rw [elemsF]; exact List.mem_append.mpr (Or.inl hb)) htag
        · refine ih [] (wid + 1) (by simp) ?_ ?_ b hb htag
          · intro x hx hxt
            exact hl1 x (by simp [hx]) hxt
          · intro x hx hxt
            exact hl2 x (by rw [elemsF]; exact List.mem_append.mpr (Or.inr hx)) hxt

/- ---------- C7 ---------- -/

/-- C7: applying the blockquote block-format command's run-wrapping over a
selection's root elements wraps each maximal run of consecutive text-type
root blocks in its own separate blockquote (equal, up to the identities of
the freshly created wrapper elements, to the specification-shaped
`wrapRunsSpec`), splitting at every non-text-block (media) boundary; and
provided each text-type root block contains no media and every
pre-existing blockquote is media-free, no media element is a descendant
of any blockquote in the result. -/
theorem c7_blockquote_runs (els : List DNode) (hu : uniqF els)
    (hm1 : ∀ n ∈ els, isTextBlockB n = true → mediaFree n = true)
    (hm2 : ∀ b ∈ elemsF els, strUpper (nodeTag b) = "BLOCKQUOTE" →
      (descElems b).all (fun e => !isMediaB e) = true) :
    eraseIdF (doBlockquoteWrap els) = eraseIdF (wrapRunsSpec 0 els) ∧
    (∀ b ∈ elemsF (doBlockquoteWrap els), strUpper (nodeTag b) = "BLOCKQUOTE" →
      (descElems b).all (fun e => !isMediaB e) = true) := by
  have hfresh : ∀ x ∈ ([] : List DNode) ++ els, nodeId x < maxIdF els + 1 := by
    intro x hx
    rw [List.nil_append] at hx
    exact Nat.lt_succ_of_le (nodeId_le_maxIdF hx)
  have hnd : ((([] : List DNode) ++ els).map nodeId).Nodup := by
    rw [List.nil_append]
    exact map_nodeId_nodup hu
  have hW := wrapStacks_textBlockStacksFrom els [] (maxIdF els + 1) hnd hfresh
  rw [List.nil_append] at hW
  have hdo : doBlockquoteWrap els = wrapRunsPend (maxIdF els + 1) [] els := by
    rw [doBlockquoteWrap, textBlockStacks_eq_from]
    exact hW
  constructor
  · rw [hdo]
    exact pend_eq_spec els.length els le_rfl (maxIdF els + 1) 0
  · rw [hdo]
    exact pend_media els [] (maxIdF els + 1) (by simp) hm1 hm2

/-- Witness for C7: two paragraphs, a non-editable media-holder `div`
containing an image, and a further paragraph. -/
theorem c7_blockquote_runs_witness :
    (uniqF [DNode.elem 1 "P" [] [.text 2 "a"], .elem 3 "P" [] [.text 4 "b"],
        .elem 5 "DIV" [("contenteditable", "false")] [.elem 6 "IMG" [] []],
        .elem 7 "P" [] [.text 8 "c"]] ∧
      eraseIdF (doBlockquoteWrap [DNode.elem 1 "P" [] [.text 2 "a"], .elem 3 "P" [] [.text 4 "b"],
        .elem 5 "DIV" [("contenteditable", "false")] [.elem 6 "IMG" [] []],
        .elem 7 "P" [] [.text 8 "c"]]) =
        eraseIdF (wrapRunsSpec 0 [DNode.elem 1 "P" [] [.text 2 "a"], .elem 3 "P" [] [.text 4 "b"],
          .elem 5 "DIV" [("contenteditable", "false")] [.elem 6 "IMG" [] []],
          .elem 7 "P" [] [.text 8 "c"]])) := by
  refine ⟨by unfold uniqF; decide, ?_⟩
  exact (c7_blockquote_runs _ (by unfold uniqF; decide)
    (by intro n hn ht; fin_cases hn <;> first | rfl | (exfalso; revert ht; decide)
        )
    (by intro b hb htag; fin_cases hb <;> first | rfl | (exfalso; revert htag; decide))).1

/- ---------- C2: sanitizer unwrap ---------- -/

theorem cleanF_append (σ : SanitizeConfig) (a b : List DNode) :
    cleanF σ (a ++ b) =
      ((cleanF σ a).1 ++ (cleanF (cleanF σ a).2 b).1, (cleanF (cleanF σ a).2 b).2) := by
  induction a generalizing σ with
  | nil => simp [cleanF]
  | cons c cs ih =>
    rw [List.cons_append, cleanF, cleanF]
    cases hcn : cleanN σ c with
    | mk o1 σ1 =>
      dsimp only
      rw [ih σ1]
      simp

theorem cleanN_unwrap (σ : SanitizeConfig) (i : Nat) (t : String)
    (a : List (String × String)) (cs : List DNode)
    (h1 : σ.elements.contains (strLower t) = false)
    (h2 : σ.remove_contents.contains (strLower t) = false)
    (h3 : σ.remove_all_contents = false) :
    cleanN σ (.elem i t a cs) = cleanF σ cs := by
  rw [cleanN]
  have h1' : ¬ strLower t ∈ σ.elements := by simpa using h1
  have h2' : ¬ strLower t ∈ σ.remove_contents := by simpa using h2
  simp [h1', h2', h3]

/-- Non-protocol configuration fields are never written by the cleaner. -/
theorem clean_preserves_core :
    (∀ n : DNode, ∀ σ : SanitizeConfig,
      ((cleanN σ n).2.elements = σ.elements ∧
       (cleanN σ n).2.remove_contents = σ.remove_contents ∧
       (cleanN σ n).2.remove_all_contents = σ.remove_all_contents)) ∧
    (∀ l : List DNode, ∀ σ : SanitizeConfig,
      ((cleanF σ l).2.elements = σ.elements ∧
       (cleanF σ l).2.remove_contents = σ.remove_contents ∧
       (cleanF σ l).2.remove_all_contents = σ.remove_all_contents)) := by
  refine dnode_mutual_ind _ _ ?_ ?_ ?_ ?_
  · intro i s σ
    simp [cleanN]
  · intro i t a cs ih σ
    rw [cleanN]
    dsimp only
    cases hcfg : cleanElemCfg σ (strLower t) a with
    | mk outAttrs2 σp =>
      have hfields : σp.elements = σ.elements ∧ σp.remove_contents = σ.remove_contents ∧
          σp.remove_all_contents = σ.remove_all_contents := by
        have : (cleanElemCfg σ (strLower t) a).2 = σp := by rw [hcfg]
        rw [← this]
        exact ⟨rfl, rfl, rfl⟩
      split
      · split
        · exact hfields
        · cases hc : cleanF σp cs with
          | mk kids σ2 =>
            dsimp only
            have h := ih σp
            rw [hc] at h
            exact ⟨h.1.trans hfields.1, h.2.1.trans hfields.2.1, h.2.2.trans hfields.2.2⟩
      · split
        · exact ⟨rfl, rfl, rfl⟩
        · exact ih σ
  · intro σ
    simp [cleanF]
  · intro c cs ihc ihcs σ
    rw [cleanF]
    simp only
    obtain ⟨e1, r1, a1⟩ := ihc σ
    obtain ⟨e2, r2, a2⟩ := ihcs (cleanN σ c).2
    exact ⟨e2.trans e1, r2.trans r1, a2.trans a1⟩

theorem elemsF_mergeAdjacentTexts (l : List DNode) :
    elemsF (mergeAdjacentTexts l) = elemsF l := by
  induction l with
  | nil => rfl
  | cons c cs ih =>
    cases c with
    | text i s =>
      rw [mergeAdjacentTexts]
      cases hm : mergeAdjacentTexts cs with
      | nil =>
        dsimp only
        simp [elemsF, elemsN, ← ih, hm]
      | cons d rest =>
        cases d with
        | text j s2 =>
          dsimp only
          simp [elemsF, elemsN, ← ih, hm]
        | elem j u b ds =>
          dsimp only
          simp [elemsF, elemsN, ← ih, hm]
    | elem i t a cs2 =>
      rw [show mergeAdjacentTexts (DNode.elem i t a cs2 :: cs) =
        DNode.elem i t a cs2 :: mergeAdjacentTexts cs from rfl]
      simp [elemsF, ih]

theorem elemsF_dropEmptyTexts (l : List DNode) : elemsF (dropEmptyTexts l) = elemsF l := by
  induction l with
  | nil => rfl
  | cons c cs ih =>
    cases c with
    | text i s =>
      rw [dropEmptyTexts, List.filter_cons]
      split
      · show elemsF (DNode.text i s :: dropEmptyTexts cs) = _
        simp [elemsF, elemsN, ih]
      · show elemsF (dropEmptyTexts cs) = _
        simp [elemsF, elemsN, ih]
    | elem i t a cs2 =>
      show elemsF (DNode.elem i t a cs2 :: dropEmptyTexts cs) = _
      simp [elemsF, ih]

theorem normalize_tag_prop (q : String → Bool) :
    (∀ n : DNode, (∀ e ∈ elemsN n, q (nodeTag e) = true) →
      (∀ e ∈ elemsN (normalizeN n), q (nodeTag e) = true)) ∧
    (∀ l : List DNode, (∀ e ∈ elemsF l, q (nodeTag e) = true) →
      (∀ e ∈ elemsF (normalizeList l), q (nodeTag e) = true)) := by
  refine dnode_mutual_ind _ _ ?_ ?_ ?_ ?_
  · intro i s _ e he
    simp [normalizeN, elemsN] at he
  · intro i t a cs ih hall e he
    rw [normalizeN, elemsN] at he
    rcases List.mem_cons.mp he with he | he
    · subst he
      have h0 := hall (.elem i t a cs) (by rw [elemsN]; exact List.mem_cons_self _ _)
      simpa [nodeTag] using h0
    · rw [elemsF_mergeAdjacentTexts, elemsF_dropEmptyTexts] at he
      refine ih ?_ e he
      intro e' he'
      exact hall e' (by rw [elemsN]; simp [he'])
  · intro _ e he
    simp [normalizeList, elemsF] at he
  · intro c cs ihc ihcs hall e he
    rw [normalizeList, elemsF] at he
    rcases List.mem_append.mp he with he | he
    · exact ihc (fun e' he' => hall e' (by rw [elemsF]; simp [he'])) e he
    · exact ihcs (fun e' he' => hall e' (by rw [elemsF]; simp [he'])) e he

theorem normalizeF_tag_prop (q : String → Bool) (l : List DNode)
    (h : ∀ e ∈ elemsF l, q (nodeTag e) = true) :
    ∀ e ∈ elemsF (normalizeF l), q (nodeTag e) = true := by
  intro e he
  rw [normalizeF, elemsF_mergeAdjacentTexts, elemsF_dropEmptyTexts] at he
  exact (normalize_tag_prop q).2 l h e he

/-- Every element that survives cleaning carries an allowed tag (no
transformers: the dynamic whitelist is empty). -/
theorem clean_tags_allowed :
    (∀ n : DNode, ∀ σ : SanitizeConfig,
      ∀ e ∈ elemsF (cleanN σ n).1, σ.elements.contains (strLower (nodeTag e)) = true) ∧
    (∀ l : List DNode, ∀ σ : SanitizeConfig,
      ∀ e ∈ elemsF (cleanF σ l).1, σ.elements.contains (strLower (nodeTag e)) = true) := by
  refine dnode_mutual_ind _ _ ?_ ?_ ?_ ?_
  · intro i s σ e he
    simp [cleanN, elemsF, elemsN] at he
  · intro i t a cs ih σ e he
    rw [cleanN] at he
    dsimp only at he
    by_cases hall : σ.elements.contains (strLower t) = true
    · rw [if_pos (by simpa using hall)] at he
      cases hcfg : cleanElemCfg σ (strLower t) a with
      | mk outAttrs2 σp =>
        rw [hcfg] at he
        dsimp only at he
        have hpe : σp.elements = σ.elements := by
          have h0 : (cleanElemCfg σ (strLower t) a).2 = σp := by rw [hcfg]
          rw [← h0]
          rfl
        split at he
        · simp only [elemsF, elemsN, List.append_nil] at he
          rcases List.mem_cons.mp he with he | he
          · subst he
            exact hall
          · exact absurd he (by simp [normalizeF, normalizeList, dropEmptyTexts,
              mergeAdjacentTexts, elemsF])
        · cases hcl : cleanF σp cs with
          | mk kids σ2 =>
            rw [hcl] at he
            dsimp only at he
            simp only [elemsF, elemsN, List.append_nil] at he
            rcases List.mem_cons.mp he with he | he
            · subst he
              exact hall
            · have hkids : ∀ e ∈ elemsF kids,
                  σ.elements.contains (strLower (nodeTag e)) = true := by
                intro e' he'
                have := ih σp e' (by rw [hcl]; exact he')
                rwa [hpe] at this
              exact normalizeF_tag_prop
                (fun tg => σ.elements.contains (strLower tg)) kids hkids e he
    · rw [if_neg (by simpa using hall)] at he
      split at he
      · simp [elemsF] at he
      · exact ih σ e he
  · intro σ e he
    simp [cleanF, elemsF] at he
  · intro c cs ihc ihcs σ e he
    rw [cleanF] at he
    dsimp only at he
    rw [elemsF_append] at he
    rcases List.mem_append.mp he with he | he
    · exact ihc σ e he
    · have := ihcs (cleanN σ c).2 e he
      rwa [(clean_preserves_core.1 c σ).1] at this

theorem cleanN_allowed_tag (σ : SanitizeConfig) (i : Nat) (t : String)
    (a : List (String × String)) (cs : List DNode)
    (h : σ.elements.contains (strLower t) = true) :
    ((cleanN σ (.elem i t a cs)).1).map nodeTag = [t] := by
  rw [cleanN]
  dsimp only
  rw [if_pos (by simpa using h)]
  split <;> simp [nodeTag]

theorem cleanF_child_tags (dk : List DNode) :
    ∀ σ : SanitizeConfig,
      (∀ c ∈ dk, ∃ i t a cs, c = DNode.elem i t a cs ∧
        σ.elements.contains (strLower t) = true) →
      ((cleanF σ dk).1).map nodeTag = dk.map nodeTag := by
  induction dk with
  | nil => intro σ _; simp [cleanF]
  | cons c rest ih =>
    intro σ h
    rw [cleanF]
    dsimp only
    rw [List.map_append]
    obtain ⟨i, t, a, cs, hc, hall⟩ := h c (by simp)
    subst hc
    rw [cleanN_allowed_tag σ i t a cs hall]
    rw [ih (cleanN σ (.elem i t a cs)).2 ?_]
    · simp [nodeTag]
    · intro c' hc'
      obtain ⟨i', t', a', cs', hc'', hall'⟩ := h c' (by simp [hc'])
      exact ⟨i', t', a', cs', hc'', by
        rwa [(clean_preserves_core.1 (.elem i t a cs) σ).1]⟩

/- ---------- C2 ---------- -/

/-- C2: for every (transformer-free) sanitize configuration and every
element `D` whose lowercased tag is neither allowed nor content-stripped,
cleaning a container with `D` somewhere among its children equals
cleaning the same container with `D` replaced by its own children — the
disallowed wrapper is unwrapped in place, its subtree is not dropped
(first conjunct); when `D`'s children are allowed elements, they survive
as elements with exactly their tags, in order, at `D`'s former position
(second conjunct); every element of the output carries an allowed tag
(third conjunct); and in particular no element with `D`'s tag occurs
anywhere in the output (fourth conjunct). -/
theorem c2_disallowed_unwrap (σ : SanitizeConfig) (ci : Nat) (ct : String)
    (ca : List (String × String)) (L1 L2 : List DNode) (di : Nat) (dt : String)
    (da : List (String × String)) (dk : List DNode)
    (h1 : σ.elements.contains (strLower dt) = false)
    (h2 : σ.remove_contents.contains (strLower dt) = false)
    (h3 : σ.remove_all_contents = false)
    (hkids : ∀ c ∈ dk, ∃ i t a cs, c = DNode.elem i t a cs ∧
      σ.elements.contains (strLower t) = true) :
    clean_node σ (.elem ci ct ca (L1 ++ .elem di dt da dk :: L2)) =
      clean_node σ (.elem ci ct ca (L1 ++ (dk ++ L2))) ∧
    ((cleanF (cleanF σ L1).2 dk).1).map nodeTag = dk.map nodeTag ∧
    (∀ e ∈ elemsF (clean_node σ (.elem ci ct ca (L1 ++ .elem di dt da dk :: L2))).1,
      σ.elements.contains (strLower (nodeTag e)) = true) ∧
    (∀ e ∈ elemsF (clean_node σ (.elem ci ct ca (L1 ++ .elem di dt da dk :: L2))).1,
      strLower (nodeTag e) ≠ strLower dt) := by
  have hcore := clean_preserves_core.2 L1 σ
  have h1' : (cleanF σ L1).2.elements.contains (strLower dt) = false := by
    rw [hcore.1]; exact h1
  have h2' : (cleanF σ L1).2.remove_contents.contains (strLower dt) = false := by
    rw [hcore.2.1]; exact h2
  have h3' : (cleanF σ L1).2.remove_all_contents = false := by
    rw [hcore.2.2]; exact h3
  have hsub : cleanF (cleanF σ L1).2 (.elem di dt da dk :: L2) =
      cleanF (cleanF σ L1).2 (dk ++ L2) := by
    rw [cleanF_append (cleanF σ L1).2 dk L2]
    rw [cleanF]
    dsimp only
    rw [cleanN_unwrap (cleanF σ L1).2 di dt da dk h1' h2' h3']
  have hmain : cleanF σ (L1 ++ .elem di dt da dk :: L2) = cleanF σ (L1 ++ (dk ++ L2)) := by
    rw [cleanF_append σ L1 (.elem di dt da dk :: L2), cleanF_append σ L1 (dk ++ L2), hsub]
  refine ⟨?_, ?_, ?_, ?_⟩
  · rw [clean_node, clean_node]
    dsimp only
    rw [hmain]
  · refine cleanF_child_tags dk (cleanF σ L1).2 ?_
    intro c hc
    obtain ⟨i, t, a, cs, hceq, hall⟩ := hkids c hc
    exact ⟨i, t, a, cs, hceq, by rw [hcore.1]; exact hall⟩
  · intro e he
    rw [clean_node] at he
    dsimp only at he
    exact normalizeF_tag_prop (fun tg => σ.elements.contains (strLower tg)) _
      (fun e' he' => clean_tags_allowed.2 _ σ e' he') e he
  · intro e he heq
    have hok : σ.elements.contains (strLower (nodeTag e)) = true := by
      rw [clean_node] at he
      dsimp only at he
      exact normalizeF_tag_prop (fun tg => σ.elements.contains (strLower tg)) _
        (fun e' he' => clean_tags_allowed.2 _ σ e' he') e he
    rw [heq] at hok
    rw [hok] at h1
    exact Bool.true_eq_false.mp h1

/-- Witness for C2: a configuration allowing only `p`, a container holding
a disallowed `DIV` wrapper with one allowed `P` child. -/
theorem c2_disallowed_unwrap_witness :
    (let σ : SanitizeConfig :=
      { elements := ["p"], attributes := [], attributesAll := [], classnames := [],
        protocols := [], add_attributes := [], remove_contents := ["script"],
        remove_all_contents := false }
     σ.elements.contains (strLower "DIV") = false ∧
     clean_node σ (.elem 0 "BODY" [] [.elem 1 "DIV" [] [.elem 2 "P" [] [.text 3 "hi"]]]) =
       clean_node σ (.elem 0 "BODY" [] ([] ++ ([.elem 2 "P" [] [.text 3 "hi"]] ++ [])))) := by
  refine ⟨by decide, ?_⟩
  exact (c2_disallowed_unwrap
    { elements := ["p"], attributes := [], attributesAll := [], classnames := [],
      protocols := [], add_attributes := [], remove_contents := ["script"],
      remove_all_contents := false }
    0 "BODY" [] [] [] 1 "DIV" [] [.elem 2 "P" [] [.text 3 "hi"]]
    (by decide) (by decide) rfl
    (by
      intro c hc
      have : c = DNode.elem 2 "P" [] [.text 3 "hi"] := by simpa using hc
      exact ⟨2, "P", [], [.text 3 "hi"], this, by decide⟩)).1

/- ---------- C5/C6: find/remove algebra over node identities ---------- -/

theorem findF_singleton (b : DNode) (j : Nat) : findF [b] j = findN b j := by
  rw [findF]
  cases h : findN b j <;> simp [findF]

theorem find_mem_ids :
    (∀ n : DNode, ∀ i t, findN n i = some t →
      nodeId t = i ∧ i ∈ idsN n ∧ (∀ j ∈ idsN t, j ∈ idsN n)) ∧
    (∀ l : List DNode, ∀ i t, findF l i = some t →
      nodeId t = i ∧ i ∈ idsF l ∧ (∀ j ∈ idsN t, j ∈ idsF l)) := by
  refine dnode_mutual_ind _ _ ?_ ?_ ?_ ?_
  · intro k s i t h
    rw [findN] at h
    split at h
    · cases h
      refine ⟨by assumption, by simp [idsN, *], by intro j hj; simpa [idsN] using hj⟩
    · cases h
  · intro k tg a cs ih i t h
    rw [findN] at h
    split at h
    · cases h
      refine ⟨by assumption, by simp [idsN, *], fun j hj => by simpa using hj⟩
    · obtain ⟨h1, h2, h3⟩ := ih i t h
      exact ⟨h1, by rw [idsN]; simp [h2], fun j hj => by rw [idsN]; simp [h3 j hj]⟩
  · intro i t h
    rw [findF] at h
    cases h
  · intro c cs ihc ihcs i t h
    rw [findF] at h
    cases hc : findN c i with
    | some r =>
      rw [hc] at h
      cases h
      obtain ⟨h1, h2, h3⟩ := ihc i t hc
      exact ⟨h1, by rw [idsF]; simp [h2], fun j hj => by rw [idsF]; simp [h3 j hj]⟩
    | none =>
      rw [hc] at h
      obtain ⟨h1, h2, h3⟩ := ihcs i t h
      exact ⟨h1, by rw [idsF]; simp [h2], fun j hj => by rw [idsF]; simp [h3 j hj]⟩

theorem find_not_mem :
    (∀ n : DNode, ∀ i, i ∉ idsN n → findN n i = none) ∧
    (∀ l : List DNode, ∀ i, i ∉ idsF l → findF l i = none) := by
  refine dnode_mutual_ind _ _ ?_ ?_ ?_ ?_
  · intro k s i h
    rw [findN]
    rw [idsN] at h
    simp at h
    simp [Ne.symm h]
  · intro k tg a cs ih i h
    rw [idsN] at h
    simp at h
    rw [findN]
    rw [if_neg (by omega), ih i h.2]
  · intro i _
    rw [findF]
  · intro c cs ihc ihcs i h
    rw [idsF] at h
    simp at h
    rw [findF, ihc i h.1, ihcs i h.2]

theorem find_some_of_mem_ids :
    (∀ n : DNode, ∀ i, i ∈ idsN n → ∃ t, findN n i = some t) ∧
    (∀ l : List DNode, ∀ i, i ∈ idsF l → ∃ t, findF l i = some t) := by
  refine dnode_mutual_ind _ _ ?_ ?_ ?_ ?_
  · intro k s i h
    rw [idsN] at h
    simp at h
    exact ⟨.text k s, by rw [findN]; simp [h]⟩
  · intro k tg a cs ih i h
    rw [idsN] at h
    by_cases hk : k = i
    · exact ⟨.elem k tg a cs, by rw [findN]; simp [hk]⟩
    · have : i ∈ idsF cs := by
        rcases List.mem_cons.mp h with h | h
        · omega
        · exact h
      obtain ⟨t, ht⟩ := ih i this
      exact ⟨t, by rw [findN]; simp [hk, ht]⟩
  · intro i h
    rw [idsF] at h
    cases h
  · intro c cs ihc ihcs i h
    rw [idsF] at h
    rcases List.mem_append.mp h with h | h
    · obtain ⟨t, ht⟩ := ihc i h
      exact ⟨t, by rw [findF, ht]⟩
    · by_cases hc : i ∈ idsN c
      · obtain ⟨t, ht⟩ := ihc i hc
        exact ⟨t, by rw [findF, ht]⟩
      · obtain ⟨t, ht⟩ := ihcs i h
        exact ⟨t, by rw [findF, (find_not_mem).1 c i hc, ht]⟩

theorem removeN_none_iff (n : DNode) (i : Nat) : removeN n i = none ↔ nodeId n = i := by
  cases n with
  | text j s =>
    rw [removeN, nodeId]
    constructor
    · intro h; split at h
      · assumption
      · cases h
    · intro h; simp [h]
  | elem j t a cs =>
    rw [removeN, nodeId]
    constructor
    · intro h; split at h
      · assumption
      · cases h
    · intro h; simp [h]

theorem removeN_some_id (n : DNode) (i : Nat) (n' : DNode) (h : removeN n i = some n') :
    nodeId n' = nodeId n := by
  cases n with
  | text j s =>
    rw [removeN] at h
    split at h
    · cases h
    · cases h; rfl
  | elem j t a cs =>
    rw [removeN] at h
    split at h
    · cases h
    · cases h; rfl

theorem remove_not_mem :
    (∀ n : DNode, ∀ i, i ∉ idsN n → removeN n i = some n) ∧
    (∀ l : List DNode, ∀ i, i ∉ idsF l → removeF l i = l) := by
  refine dnode_mutual_ind _ _ ?_ ?_ ?_ ?_
  · intro k s i h
    rw [idsN] at h
    simp at h
    rw [removeN]
    simp [Ne.symm h]
  · intro k tg a cs ih i h
    rw [idsN] at h
    simp at h
    rw [removeN, if_neg (by omega), ih i h.2]
  · intro i _
    rw [removeF]
  · intro c cs ihc ihcs i h
    rw [idsF] at h
    simp at h
    have hid : nodeId c ≠ i := by
      intro he
      exact h.1 (he ▸ nodeId_mem_idsN c)
    rw [removeF, if_neg hid, ihc i h.1, ihcs i h.2]

theorem ids_remove_sublist :
    (∀ n : DNode, ∀ i n', removeN n i = some n' → (idsN n').Sublist (idsN n)) ∧
    (∀ l : List DNode, ∀ i, (idsF (removeF l i)).Sublist (idsF l)) := by
  refine dnode_mutual_ind _ _ ?_ ?_ ?_ ?_
  · intro k s i n' h
    rw [removeN] at h
    split at h
    · cases h
    · cases h; exact List.Sublist.refl _
  · intro k tg a cs ih i n' h
    rw [removeN] at h
    split at h
    · cases h
    · cases h
      rw [idsN, idsN]
      exact List.Sublist.cons₂ _ (ih i)
  · intro i
    rw [removeF]
  · intro c cs ihc ihcs i
    rw [removeF]
    split
    · rw [idsF]
      exact List.sublist_append_right _ _
    · cases hc : removeN c i with
      | some c' =>
        rw [idsF, idsF]
        exact List.Sublist.append (ihc i c' hc) (ihcs i)
      | none =>
        rw [idsF]
        exact List.Sublist.trans (ihcs i) (List.sublist_append_right _ _)

theorem remove_perm :
    (∀ n : DNode, ∀ i t, (idsN n).Nodup → findN n i = some t → nodeId n ≠ i →
      ∃ n', removeN n i = some n' ∧ (idsN n' ++ idsN t).Perm (idsN n)) ∧
    (∀ l : List DNode, ∀ i t, (idsF l).Nodup → findF l i = some t →
      (idsF (removeF l i) ++ idsN t).Perm (idsF l)) := by
  refine dnode_mutual_ind _ _ ?_ ?_ ?_ ?_
  · intro k s i t _ hf hne
    rw [findN] at hf
    rw [nodeId] at hne
    rw [if_neg hne] at hf
    cases hf
  · intro k tg a cs ih i t hu hf hne
    rw [nodeId] at hne
    rw [findN, if_neg hne] at hf
    rw [idsN] at hu
    have hcs := (List.nodup_cons.mp hu).2
    refine ⟨.elem k tg a (removeF cs i), by rw [removeN, if_neg hne], ?_⟩
    rw [idsN, idsN]
    simp only [List.cons_append]
    exact (ih i t hcs hf).cons k
  · intro i t _ hf
    rw [findF] at hf
    cases hf
  · intro c cs ihc ihcs i t hu hf
    rw [idsF] at hu
    have huc := (List.nodup_append.mp hu).1
    have hucs := (List.nodup_append.mp hu).2.1
    have hdisj := (List.nodup_append.mp hu).2.2
    rw [findF] at hf
    cases hc : findN c i with
    | some r =>
      rw [hc] at hf
      cases hf
      have hmem : i ∈ idsN c := ((find_mem_ids).1 c i t hc).2.1
      have hnotcs : i ∉ idsF cs := fun hin => hdisj hmem hin
      by_cases hid : nodeId c = i
      · have ht : t = c := by
          cases c with
          | text j s =>
            rw [nodeId] at hid
            rw [findN, if_pos hid] at hc
            cases hc; rw [hid]
          | elem j tg a k =>
            rw [nodeId] at hid
            rw [findN, if_pos hid] at hc
            cases hc; rw [hid]
        subst ht
        rw [removeF, if_pos hid, idsF]
        exact List.perm_append_comm
      · obtain ⟨c', hc', hp⟩ := ihc i t huc hc hid
        rw [removeF, if_neg hid, hc', (remove_not_mem).2 cs i hnotcs, idsF]
        refine List.Perm.trans ?_ (hp.append_right (idsF cs))
        simp only [List.append_assoc]
        exact List.Perm.append_left _ List.perm_append_comm
    | none =>
      rw [hc] at hf
      have hnotc : i ∉ idsN c := by
        intro hin
        obtain ⟨r, hr⟩ := (find_some_of_mem_ids).1 c i hin
        rw [hr] at hc; cases hc
      have hid : nodeId c ≠ i := fun he => hnotc (he ▸ nodeId_mem_idsN c)
      rw [removeF, if_neg hid, (remove_not_mem).1 c i hnotc, idsF, idsF]
      simp only [List.append_assoc]
      exact List.Perm.append_left _ (ihcs i t hucs hf)

theorem not_mem_of_findN_none {n : DNode} {j : Nat} (h : findN n j = none) : j ∉ idsN n := by
  intro hin
  obtain ⟨t, ht⟩ := (find_some_of_mem_ids).1 n j hin
  rw [ht] at h; cases h

theorem not_mem_of_findF_none {l : List DNode} {j : Nat} (h : findF l j = none) : j ∉ idsF l := by
  intro hin
  obtain ⟨t, ht⟩ := (find_some_of_mem_ids).2 l j hin
  rw [ht] at h; cases h

theorem findF_append_some {a : List DNode} (b : List DNode) {j : Nat} {t : DNode}
    (h : findF a j = some t) : findF (a ++ b) j = some t := by
  induction a with
  | nil => rw [findF] at h; cases h
  | cons c cs ih =>
    rw [findF] at h
    rw [List.cons_append, findF]
    cases hc : findN c j with
    | some r => rw [hc] at h; cases h; rfl
    | none => rw [hc] at h; exact ih h

theorem findF_append_none {a : List DNode} (b : List DNode) {j : Nat}
    (h : findF a j = none) : findF (a ++ b) j = findF b j := by
  induction a with
  | nil => rfl
  | cons c cs ih =>
    rw [findF] at h
    rw [List.cons_append, findF]
    cases hc : findN c j with
    | some r => rw [hc] at h; cases h
    | none => rw [hc] at h; exact ih h

theorem elems_ids_sublist :
    (∀ n : DNode, ((elemsN n).map nodeId).Sublist (idsN n)) ∧
    (∀ l : List DNode, ((elemsF l).map nodeId).Sublist (idsF l)) := by
  refine dnode_mutual_ind _ _ ?_ ?_ ?_ ?_
  · intro k s
    rw [elemsN, idsN]
    simp
  · intro k tg a cs ih
    rw [elemsN, idsN]
    simp only [List.map_cons, nodeId]
    exact List.Sublist.cons₂ k ih
  · rw [elemsF, idsF]; simp
  · intro c cs ihc ihcs
    rw [elemsF, idsF, List.map_append]
    exact List.Sublist.append ihc ihcs

theorem elems_sub_ids :
    (∀ n : DNode, ∀ e ∈ elemsN n, ∀ j ∈ idsN e, j ∈ idsN n) ∧
    (∀ l : List DNode, ∀ e ∈ elemsF l, ∀ j ∈ idsN e, j ∈ idsF l) := by
  refine dnode_mutual_ind _ _ ?_ ?_ ?_ ?_
  · intro k s e he
    rw [elemsN] at he
    cases he
  · intro k tg a cs ih e he j hj
    rw [elemsN] at he
    rw [idsN]
    rcases List.mem_cons.mp he with he | he
    · subst he; exact hj
    · exact List.mem_cons.mpr (Or.inr (ih e he j hj))
  · intro e he
    rw [elemsF] at he
    cases he
  · intro c cs ihc ihcs e he j hj
    rw [elemsF] at he
    rw [idsF]
    rcases List.mem_append.mp he with he | he
    · exact List.mem_append.mpr (Or.inl (ihc e he j hj))
    · exact List.mem_append.mpr (Or.inr (ihcs e he j hj))

theorem find_comp :
    (∀ n : DNode, ∀ i t j, (idsN n).Nodup → findN n i = some t → j ∈ idsN t →
      findN n j = findN t j) ∧
    (∀ l : List DNode, ∀ i t j, (idsF l).Nodup → findF l i = some t → j ∈ idsN t →
      findF l j = findN t j) := by
  refine dnode_mutual_ind _ _ ?_ ?_ ?_ ?_
  · intro k s i t j _ hf _
    rw [findN] at hf
    split at hf
    · cases hf; rfl
    · cases hf
  · intro k tg a cs ih i t j hu hf hj
    rw [findN] at hf
    split at hf
    · cases hf; rfl
    · have hjcs : j ∈ idsF cs := ((find_mem_ids).2 cs i t hf).2.2 j hj
      rw [idsN] at hu
      have hk : k ∉ idsF cs := (List.nodup_cons.mp hu).1
      have hkj : ¬ k = j := fun he => hk (he ▸ hjcs)
      rw [findN, if_neg hkj]
      exact ih i t j (List.nodup_cons.mp hu).2 hf hj
  · intro i t j _ hf _
    rw [findF] at hf
    cases hf
  · intro c cs ihc ihcs i t j hu hf hj
    rw [idsF] at hu
    have huc := (List.nodup_append.mp hu).1
    have hucs := (List.nodup_append.mp hu).2.1
    have hdisj := (List.nodup_append.mp hu).2.2
    rw [findF] at hf
    cases hc : findN c i with
    | some r =>
      rw [hc] at hf
      cases hf
      have hcj := ihc i t j huc hc hj
      have hjc : j ∈ idsN c := ((find_mem_ids).1 c i t hc).2.2 j hj
      obtain ⟨u, hu'⟩ := (find_some_of_mem_ids).1 t j hj
      rw [findF, hcj, hu']
    | none =>
      rw [hc] at hf
      have hjcs : j ∈ idsF cs := ((find_mem_ids).2 cs i t hf).2.2 j hj
      have hjnc : j ∉ idsN c := fun hin => hdisj hin hjcs
      rw [findF, (find_not_mem).1 c j hjnc]
      exact ihcs i t j hucs hf hj

theorem find_remove :
    (∀ n : DNode, ∀ i t j u, (idsN n).Nodup → findN n i = some t → nodeId n ≠ i →
      findN n j = some u → j ∉ idsN t → i ∉ idsN u →
      ∃ n', removeN n i = some n' ∧ findN n' j = some u) ∧
    (∀ l : List DNode, ∀ i t j u, (idsF l).Nodup → findF l i = some t →
      findF l j = some u → j ∉ idsN t → i ∉ idsN u →
      findF (removeF l i) j = some u) := by
  refine dnode_mutual_ind _ _ ?_ ?_ ?_ ?_
  · intro k s i t j u _ hf hne _ _ _
    rw [findN] at hf
    rw [nodeId] at hne
    rw [if_neg hne] at hf
    cases hf
  · intro k tg a cs ih i t j u hu hf hne hj hjt hiu
    rw [nodeId] at hne
    rw [findN, if_neg hne] at hf
    rw [idsN] at hu
    have hics : i ∈ idsF cs := ((find_mem_ids).2 cs i t hf).2.1
    rw [findN] at hj
    refine ⟨.elem k tg a (removeF cs i), by rw [removeN, if_neg hne], ?_⟩
    split at hj
    · cases hj
      exfalso
      apply hiu
      rw [idsN]
      exact List.mem_cons.mpr (Or.inr hics)
    · rw [findN]
      rw [if_neg (by assumption)]
      exact ih i t j u (List.nodup_cons.mp hu).2 hf hj hjt hiu
  · intro i t j u _ hf _ _ _
    rw [findF] at hf
    cases hf
  · intro c cs ihc ihcs i t j u hu hf hj hjt hiu
    rw [idsF] at hu
    have huc := (List.nodup_append.mp hu).1
    have hucs := (List.nodup_append.mp hu).2.1
    have hdisj := (List.nodup_append.mp hu).2.2
    rw [findF] at hf
    rw [findF] at hj
    cases hc : findN c i with
    | some r =>
      rw [hc] at hf
      cases hf
      have hic : i ∈ idsN c := ((find_mem_ids).1 c i t hc).2.1
      have hincs : i ∉ idsF cs := fun hin => hdisj hic hin
      by_cases hid : nodeId c = i
      · have ht : t = c := by
          cases c with
          | text p s =>
            rw [nodeId] at hid
            rw [findN, if_pos hid] at hc
            cases hc; rw [hid]
          | elem p tg a k =>
            rw [nodeId] at hid
            rw [findN, if_pos hid] at hc
            cases hc; rw [hid]
        subst ht
        rw [removeF, if_pos hid]
        cases hcj : findN t j with
        | some r =>
          exfalso
          exact hjt (((find_mem_ids).1 t j r hcj).2.1)
        | none =>
          rw [hcj] at hj
          exact hj
      · rw [removeF, if_neg hid, (remove_not_mem).2 cs i hincs]
        cases hcj : findN c j with
        | some v =>
          rw [hcj] at hj
          cases hj
          obtain ⟨c', hrem, hfind⟩ := ihc i t j u huc hc hid hcj hjt hiu
          rw [hrem, findF, hfind]
        | none =>
          rw [hcj] at hj
          cases hrem : removeN c i with
          | none => exact absurd ((removeN_none_iff c i).mp hrem) hid
          | some c' =>
            have hjnc' : j ∉ idsN c' :=
              fun hin => not_mem_of_findN_none hcj (((ids_remove_sublist).1 c i c' hrem).subset hin)
            rw [findF, (find_not_mem).1 c' j hjnc']
            exact hj
    | none =>
      rw [hc] at hf
      have hinc : i ∉ idsN c := not_mem_of_findN_none hc
      have hid : nodeId c ≠ i := fun he => hinc (he ▸ nodeId_mem_idsN c)
      rw [removeF, if_neg hid, (remove_not_mem).1 c i hinc]
      cases hcj : findN c j with
      | some v =>
        rw [hcj] at hj
        cases hj
        rw [findF, hcj]
      | none =>
        rw [hcj] at hj
        rw [findF, hcj]
        exact ihcs i t j u hucs hf hj hjt hiu

theorem removeF_map_id {l : List DNode} {i : Nat} (h : i ∉ l.map nodeId) :
    (removeF l i).map nodeId = l.map nodeId := by
  induction l with
  | nil => rfl
  | cons c cs ih =>
    rw [List.map_cons] at h
    have hne : nodeId c ≠ i := fun he => h (List.mem_cons.mpr (Or.inl he.symm))
    rw [removeF, if_neg hne]
    cases hrem : removeN c i with
    | none => exact absurd ((removeN_none_iff c i).mp hrem) hne
    | some c' =>
      rw [List.map_cons, List.map_cons, removeN_some_id c i c' hrem,
        ih (fun hin => h (List.mem_cons.mpr (Or.inr hin)))]

theorem elem_find :
    (∀ n : DNode, ∀ e, (idsN n).Nodup → e ∈ elemsN n → findN n (nodeId e) = some e) ∧
    (∀ l : List DNode, ∀ e, (idsF l).Nodup → e ∈ elemsF l → findF l (nodeId e) = some e) := by
  refine dnode_mutual_ind _ _ ?_ ?_ ?_ ?_
  · intro k s e _ he
    rw [elemsN] at he
    cases he
  · intro k tg a cs ih e hu he
    rw [elemsN] at he
    rw [idsN] at hu
    rcases List.mem_cons.mp he with he | he
    · subst he
      rw [findN, nodeId]
      simp
    · have hecs : nodeId e ∈ idsF cs :=
        (elems_ids_sublist).2 cs |>.subset (List.mem_map_of_mem nodeId he)
      have hk : k ∉ idsF cs := (List.nodup_cons.mp hu).1
      have hne : ¬ k = nodeId e := fun h => hk (h ▸ hecs)
      rw [findN, if_neg hne]
      exact ih e (List.nodup_cons.mp hu).2 he
  · intro e _ he
    rw [elemsF] at he
    cases he
  · intro c cs ihc ihcs e hu he
    rw [idsF] at hu
    have huc := (List.nodup_append.mp hu).1
    have hucs := (List.nodup_append.mp hu).2.1
    have hdisj := (List.nodup_append.mp hu).2.2
    rw [elemsF] at he
    rcases List.mem_append.mp he with he | he
    · rw [findF, ihc e huc he]
    · have hecs : nodeId e ∈ idsF cs :=
        (elems_ids_sublist).2 cs |>.subset (List.mem_map_of_mem nodeId he)
      have henc : nodeId e ∉ idsN c := fun hin => hdisj hin hecs
      rw [findF, (find_not_mem).1 c (nodeId e) henc]
      exact ihcs e hucs he

theorem elems_pairwise :
    (∀ n : DNode, (idsN n).Nodup →
      (elemsN n).Pairwise (fun x y => nodeId x ∉ idsN y)) ∧
    (∀ l : List DNode, (idsF l).Nodup →
      (elemsF l).Pairwise (fun x y => nodeId x ∉ idsN y)) := by
  refine dnode_mutual_ind _ _ ?_ ?_ ?_ ?_
  · intro k s _
    rw [elemsN]
    exact List.Pairwise.nil
  · intro k tg a cs ih hu
    rw [idsN] at hu
    rw [elemsN]
    refine List.pairwise_cons.mpr ⟨?_, ih (List.nodup_cons.mp hu).2⟩
    intro y hy hin
    have : k ∈ idsF cs := (elems_sub_ids).2 cs y hy k (by simpa [nodeId] using hin)
    exact (List.nodup_cons.mp hu).1 this
  · intro _
    rw [elemsF]
    exact List.Pairwise.nil
  · intro c cs ihc ihcs hu
    rw [idsF] at hu
    have huc := (List.nodup_append.mp hu).1
    have hucs := (List.nodup_append.mp hu).2.1
    have hdisj := (List.nodup_append.mp hu).2.2
    rw [elemsF]
    refine List.pairwise_append.mpr ⟨ihc huc, ihcs hucs, ?_⟩
    intro x hx y hy hin
    have hxc : nodeId x ∈ idsN c :=
      (elems_ids_sublist).1 c |>.subset (List.mem_map_of_mem nodeId hx)
    have : nodeId x ∈ idsF cs := (elems_sub_ids).2 cs y hy (nodeId x) hin
    exact hdisj hxc this

theorem idsF_singleton (b : DNode) : idsF [b] = idsN b := by
  rw [idsF, idsF, List.append_nil]

theorem processBlocks_ids (bs : List DNode) :
    ∀ (soup out : List DNode),
      (idsF soup ++ idsF out).Nodup →
      (∀ b ∈ bs, findF soup (nodeId b) = some b ∨
        (findF soup (nodeId b) = none ∧ findF out (nodeId b) = some b)) →
      List.Pairwise (fun x y => nodeId x ∉ idsN y) bs →
      (bs.map nodeId).Nodup →
      (∀ b ∈ bs, nodeId b ∉ out.map nodeId) →
      (processBlocks (bs.map nodeId) soup out).map nodeId =
        out.map nodeId ++ (bs.filter keepB).map nodeId := by
  induction bs with
  | nil =>
    intro soup out _ _ _ _ _
    rw [List.map_nil, processBlocks, List.filter_nil, List.map_nil, List.append_nil]
  | cons b bs ih =>
    intro soup out hu hfind hpair hnb hout
    have husoup := (List.nodup_append.mp hu).1
    have huout := (List.nodup_append.mp hu).2.1
    have hdisj := (List.nodup_append.mp hu).2.2
    have hpairR := (List.pairwise_cons.mp hpair).1
    have hpairT := (List.pairwise_cons.mp hpair).2
    have hnbH : nodeId b ∉ bs.map nodeId := by
      rw [List.map_cons] at hnb
      exact (List.nodup_cons.mp hnb).1
    have hnbT : (bs.map nodeId).Nodup := by
      rw [List.map_cons] at hnb
      exact (List.nodup_cons.mp hnb).2
    have houtH : nodeId b ∉ out.map nodeId := hout b (List.mem_cons_self b bs)
    have hcase := hfind b (List.mem_cons_self b bs)
    rw [List.map_cons, processBlocks]
    split
    · rename_i t heq
      rcases hcase with hs | ⟨hsn, ho⟩
      · have htb : b = t := by
          rw [hs] at heq
          exact Option.some.inj heq
        subst t
        split
        · rename_i hkeep
          have hperm := (remove_perm).2 soup (nodeId b) b husoup hs
          have hsrem : (idsF (removeF soup (nodeId b)) ++ idsN b).Nodup :=
            hperm.nodup_iff.mpr husoup
          have hsdisj := (List.nodup_append.mp hsrem).2.2
          have hw' : (idsF (removeF soup (nodeId b)) ++ idsF (out ++ [b])).Nodup := by
            rw [idsF_append, idsF_singleton]
            have h1 : (idsF (removeF soup (nodeId b)) ++ (idsF out ++ idsN b)).Perm
                (idsF soup ++ idsF out) := by
              refine List.Perm.trans (List.Perm.append_left _ List.perm_append_comm) ?_
              rw [← List.append_assoc]
              exact hperm.append_right _
            exact h1.nodup_iff.mpr hu
          have hfind' : ∀ b' ∈ bs,
              findF (removeF soup (nodeId b)) (nodeId b') = some b' ∨
              (findF (removeF soup (nodeId b)) (nodeId b') = none ∧
                findF (out ++ [b]) (nodeId b') = some b') := by
            intro b' hb'
            rcases hfind b' (List.mem_cons_of_mem b hb') with hs' | ⟨hsn', ho'⟩
            · by_cases hin : nodeId b' ∈ idsN b
              · right
                refine ⟨(find_not_mem).2 _ _ (fun h => hsdisj h hin), ?_⟩
                have h1 : findF out (nodeId b') = none :=
                  (find_not_mem).2 _ _
                    (fun h => hdisj ((find_mem_ids).2 soup (nodeId b') b' hs').2.1 h)
                rw [findF_append_none _ h1, findF_singleton]
                have h2 := (find_comp).2 soup (nodeId b) b (nodeId b') husoup hs hin
                rw [← h2]
                exact hs'
              · left
                exact (find_remove).2 soup (nodeId b) b (nodeId b') b' husoup hs hs'
                  hin (hpairR b' hb')
            · right
              refine ⟨?_, findF_append_some _ ho'⟩
              refine (find_not_mem).2 _ _ (fun h => ?_)
              exact (not_mem_of_findF_none hsn')
                (((ids_remove_sublist).2 soup (nodeId b)).subset h)
          have hout' : ∀ b' ∈ bs, nodeId b' ∉ (out ++ [b]).map nodeId := by
            intro b' hb' hmem
            rw [List.map_append] at hmem
            rcases List.mem_append.mp hmem with h | h
            · exact hout b' (List.mem_cons_of_mem b hb') h
            · simp at h
              exact hnbH (h ▸ List.mem_map_of_mem nodeId hb')
          rw [ih (removeF soup (nodeId b)) (out ++ [b]) hw' hfind' hpairT hnbT hout']
          simp [List.filter_cons, hkeep]
        · rename_i hkeep
          rw [ih soup out hu (fun b' hb' => hfind b' (List.mem_cons_of_mem b hb'))
            hpairT hnbT (fun b' hb' => hout b' (List.mem_cons_of_mem b hb'))]
          simp only [List.filter_cons, if_neg hkeep]
      · rw [hsn] at heq
        cases heq
    · rename_i heqn
      split
      · rename_i t heq2
        rcases hcase with hs | ⟨hsn, ho⟩
        · rw [hs] at heqn
          cases heqn
        · have htb : b = t := by
            rw [ho] at heq2
            exact Option.some.inj heq2
          subst t
          split
          · rename_i hkeep
            have hpermo := (remove_perm).2 out (nodeId b) b huout ho
            have horem : (idsF (removeF out (nodeId b)) ++ idsN b).Nodup :=
              hpermo.nodup_iff.mpr huout
            have hodisj := (List.nodup_append.mp horem).2.2
            have hw' : (idsF soup ++ idsF (removeF out (nodeId b) ++ [b])).Nodup := by
              rw [idsF_append, idsF_singleton]
              exact (List.Perm.append_left (idsF soup) hpermo).nodup_iff.mpr hu
            have hfind' : ∀ b' ∈ bs,
                findF soup (nodeId b') = some b' ∨
                (findF soup (nodeId b') = none ∧
                  findF (removeF out (nodeId b) ++ [b]) (nodeId b') = some b') := by
              intro b' hb'
              rcases hfind b' (List.mem_cons_of_mem b hb') with hs' | ⟨hsn', ho'⟩
              · left
                exact hs'
              · right
                refine ⟨hsn', ?_⟩
                by_cases hin : nodeId b' ∈ idsN b
                · have h1 : findF (removeF out (nodeId b)) (nodeId b') = none :=
                    (find_not_mem).2 _ _ (fun h => hodisj h hin)
                  rw [findF_append_none _ h1, findF_singleton]
                  have h2 := (find_comp).2 out (nodeId b) b (nodeId b') huout ho hin
                  rw [← h2]
                  exact ho'
                · exact findF_append_some _
                    ((find_remove).2 out (nodeId b) b (nodeId b') b' huout ho ho'
                      hin (hpairR b' hb'))
            have hout' : ∀ b' ∈ bs, nodeId b' ∉ (removeF out (nodeId b) ++ [b]).map nodeId := by
              intro b' hb' hmem
              rw [List.map_append, removeF_map_id houtH] at hmem
              rcases List.mem_append.mp hmem with h | h
              · exact hout b' (List.mem_cons_of_mem b hb') h
              · simp at h
                exact hnbH (h ▸ List.mem_map_of_mem nodeId hb')
            rw [ih soup (removeF out (nodeId b) ++ [b]) hw' hfind' hpairT hnbT hout']
            rw [List.map_append, removeF_map_id houtH]
            simp [List.filter_cons, hkeep]
          · rename_i hkeep
            rw [ih soup out hu (fun b' hb' => hfind b' (List.mem_cons_of_mem b hb'))
              hpairT hnbT (fun b' hb' => hout b' (List.mem_cons_of_mem b hb'))]
            simp only [List.filter_cons, if_neg hkeep]
      · rename_i heqn2
        rcases hcase with hs | ⟨hsn, ho⟩
        · rw [hs] at heqn
          cases heqn
        · rw [ho] at heqn2
          cases heqn2

theorem ids_sublist_mono {l1 l2 : List DNode} (h : l1.Sublist l2) :
    (idsF l1).Sublist (idsF l2) := by
  induction h with
  | slnil => exact List.Sublist.refl _
  | cons c _ ih =>
    rw [idsF]
    exact List.Sublist.trans ih (List.sublist_append_right _ _)
  | cons₂ c _ ih =>
    rw [idsF, idsF]
    exact List.Sublist.append (List.Sublist.refl _) ih

theorem mergeAdjacentTexts_ids (l : List DNode) :
    (idsF (mergeAdjacentTexts l)).Sublist (idsF l) := by
  induction l with
  | nil => exact List.Sublist.refl _
  | cons c cs ih =>
    cases c with
    | text i s =>
      cases hm : mergeAdjacentTexts cs with
      | nil =>
        rw [mergeAdjacentTexts, hm]
        show (idsF [DNode.text i s]).Sublist (idsF (DNode.text i s :: cs))
        rw [idsF_singleton, idsF]
        exact List.sublist_append_left _ _
      | cons d ds =>
        cases d with
        | text j s2 =>
          rw [mergeAdjacentTexts, hm]
          show (idsF (DNode.text i (s ++ s2) :: ds)).Sublist (idsF (DNode.text i s :: cs))
          rw [idsF, idsF, idsN, idsN]
          have hds : (idsF ds).Sublist (idsF cs) := by
            rw [hm, idsF, idsN] at ih
            exact List.sublist_of_cons_sublist (by simpa using ih)
          simpa using List.Sublist.cons₂ i hds
        | elem j tg a k =>
          rw [mergeAdjacentTexts, hm]
          show (idsF (DNode.text i s :: DNode.elem j tg a k :: ds)).Sublist
            (idsF (DNode.text i s :: cs))
          rw [hm] at ih
          simp only [idsF, idsN, List.cons_append, List.append_assoc, List.nil_append] at ih ⊢
          exact List.Sublist.cons₂ i ih
    | elem i tg a k =>
      rw [mergeAdjacentTexts]
      · rw [idsF, idsF]
        exact List.Sublist.append (List.Sublist.refl _) ih
      · intro _ _ h
        cases h

theorem normalize_ids :
    (∀ n : DNode, (idsN (normalizeN n)).Sublist (idsN n)) ∧
    (∀ l : List DNode, (idsF (normalizeList l)).Sublist (idsF l)) := by
  refine dnode_mutual_ind _ _ ?_ ?_ ?_ ?_
  · intro k s
    rw [normalizeN]
  · intro k tg a cs ih
    rw [normalizeN, idsN, idsN]
    refine List.Sublist.cons₂ k ?_
    refine List.Sublist.trans (mergeAdjacentTexts_ids _) ?_
    refine List.Sublist.trans (ids_sublist_mono (List.filter_sublist _)) ih
  · rw [normalizeList]
  · intro c cs ihc ihcs
    rw [normalizeList, idsF, idsF]
    exact List.Sublist.append ihc ihcs

theorem normalizeF_ids (l : List DNode) : (idsF (normalizeF l)).Sublist (idsF l) := by
  rw [normalizeF]
  refine List.Sublist.trans (mergeAdjacentTexts_ids _) ?_
  exact List.Sublist.trans (ids_sublist_mono (List.filter_sublist _)) ((normalize_ids).2 l)

theorem wrapTexts_text_pos (fresh i : Nat) (s : String) (rest : List DNode)
    (h : strTrim s ≠ "") :
    wrapTexts fresh (.text i s :: rest) =
      (.elem fresh "P" [] [.text i s] :: (wrapTexts (fresh + 1) rest).1,
        (wrapTexts (fresh + 1) rest).2) := by
  rw [wrapTexts]
  simp only [if_pos h]

theorem wrapTexts_text_neg (fresh i : Nat) (s : String) (rest : List DNode)
    (h : ¬ strTrim s ≠ "") :
    wrapTexts fresh (.text i s :: rest) =
      (.text i s :: (wrapTexts fresh rest).1, (wrapTexts fresh rest).2) := by
  rw [wrapTexts]
  simp only [if_neg h]

theorem wrapTexts_elem (fresh j : Nat) (tg : String) (a : List (String × String))
    (k rest : List DNode) :
    wrapTexts fresh (.elem j tg a k :: rest) =
      (.elem j tg a k :: (wrapTexts fresh rest).1, (wrapTexts fresh rest).2) := by
  rw [wrapTexts]
  intro _ _ h
  cases h

theorem wrapTexts_ids (l : List DNode) :
    ∀ fresh : Nat, (∀ id ∈ idsF l, id < fresh) →
      fresh ≤ (wrapTexts fresh l).2 ∧
      (∀ id ∈ idsF (wrapTexts fresh l).1,
        id ∈ idsF l ∨ (fresh ≤ id ∧ id < (wrapTexts fresh l).2)) ∧
      ((idsF l).Nodup → (idsF (wrapTexts fresh l).1).Nodup) := by
  induction l with
  | nil =>
    intro fresh _
    rw [wrapTexts]
    dsimp only
    refine ⟨Nat.le_refl _, ?_, ?_⟩
    · intro id hid
      rw [idsF] at hid
      cases hid
    · intro _
      rw [idsF]
      exact List.nodup_nil
  | cons c cs ih =>
    intro fresh hb
    have hbc : ∀ id ∈ idsN c, id < fresh := fun id hid =>
      hb id (by rw [idsF]; exact List.mem_append.mpr (Or.inl hid))
    have hbcs : ∀ id ∈ idsF cs, id < fresh := fun id hid =>
      hb id (by rw [idsF]; exact List.mem_append.mpr (Or.inr hid))
    cases c with
    | text i s =>
      have hi : i < fresh := hbc i (by rw [idsN]; exact List.mem_singleton_self i)
      by_cases hs : strTrim s ≠ ""
      · obtain ⟨h1, h2, h3⟩ := ih (fresh + 1) (fun id hid => Nat.lt_succ_of_lt (hbcs id hid))
        rw [wrapTexts_text_pos fresh i s cs hs]
        dsimp only
        refine ⟨Nat.le_trans (Nat.le_succ fresh) h1, ?_, ?_⟩
        · intro id hid
          simp only [idsF, idsN, List.cons_append, List.nil_append, List.append_nil,
            List.mem_cons, List.mem_append] at hid ⊢
          rcases hid with rfl | hid
          · exact Or.inr ⟨Nat.le_refl _, Nat.lt_of_lt_of_le (Nat.lt_succ_self _) h1⟩
          rcases hid with rfl | hid
          · exact Or.inl (Or.inl rfl)
          rcases h2 id hid with h | ⟨ha, hb'⟩
          · exact Or.inl (Or.inr h)
          · exact Or.inr ⟨Nat.le_trans (Nat.le_succ _) ha, hb'⟩
        · intro hnd
          simp only [idsF, idsN, List.cons_append, List.nil_append, List.append_nil] at hnd ⊢
          have hnd' := List.nodup_cons.mp hnd
          have hrest := h3 hnd'.2
          refine List.nodup_cons.mpr ⟨?_, List.nodup_cons.mpr ⟨?_, hrest⟩⟩
          · intro hmem
            rcases List.mem_cons.mp hmem with h | h
            · omega
            · rcases h2 _ h with h | ⟨ha, _⟩
              · exact Nat.lt_irrefl fresh (hbcs _ h)
              · omega
          · intro hmem
            rcases h2 _ hmem with h | ⟨ha, _⟩
            · exact hnd'.1 h
            · omega
      · obtain ⟨h1, h2, h3⟩ := ih fresh hbcs
        rw [wrapTexts_text_neg fresh i s cs hs]
        dsimp only
        refine ⟨h1, ?_, ?_⟩
        · intro id hid
          simp only [idsF, idsN, List.cons_append, List.nil_append,
            List.mem_cons, List.mem_append] at hid ⊢
          rcases hid with rfl | hid
          · exact Or.inl (Or.inl rfl)
          rcases h2 id hid with h | hr
          · exact Or.inl (Or.inr h)
          · exact Or.inr hr
        · intro hnd
          simp only [idsF, idsN, List.cons_append, List.nil_append] at hnd ⊢
          have hnd' := List.nodup_cons.mp hnd
          refine List.nodup_cons.mpr ⟨?_, h3 hnd'.2⟩
          intro hmem
          rcases h2 _ hmem with h | ⟨ha, _⟩
          · exact hnd'.1 h
          · omega
    | elem j tg a k =>
      obtain ⟨h1, h2, h3⟩ := ih fresh hbcs
      rw [wrapTexts_elem]
      dsimp only
      refine ⟨h1, ?_, ?_⟩
      · intro id hid
        simp only [idsF, List.mem_append] at hid ⊢
        rcases hid with hid | hid
        · exact Or.inl (Or.inl hid)
        rcases h2 id hid with h | hr
        · exact Or.inl (Or.inr h)
        · exact Or.inr hr
      · intro hnd
        simp only [idsF] at hnd ⊢
        have h4 := List.nodup_append.mp hnd
        refine List.nodup_append.mpr ⟨h4.1, h3 h4.2.1, ?_⟩
        intro x hx hx'
        rcases h2 x hx' with h | ⟨ha, _⟩
        · exact h4.2.2 hx h
        · exact Nat.lt_irrefl x (Nat.lt_of_lt_of_le (hbc x hx) ha)

theorem wrapInline_pos (fresh : Nat) (n : DNode) (rest : List DNode)
    (h : (isElemNode n && !isBlockB n && !isMediaB n &&
      !(nodeTag n = mediaHolderElement) && !(nodeTag n = separatorElement)) = true) :
    wrapInline fresh (n :: rest) =
      (.elem fresh "P" [] [n] :: (wrapInline (fresh + 1) rest).1,
        (wrapInline (fresh + 1) rest).2) := by
  rw [wrapInline]
  simp only [h, if_true]

theorem wrapInline_neg (fresh : Nat) (n : DNode) (rest : List DNode)
    (h : ¬ (isElemNode n && !isBlockB n && !isMediaB n &&
      !(nodeTag n = mediaHolderElement) && !(nodeTag n = separatorElement)) = true) :
    wrapInline fresh (n :: rest) =
      (n :: (wrapInline fresh rest).1, (wrapInline fresh rest).2) := by
  rw [wrapInline]
  simp only [if_neg h]

theorem wrapInline_ids (l : List DNode) :
    ∀ fresh : Nat, (∀ id ∈ idsF l, id < fresh) →
      fresh ≤ (wrapInline fresh l).2 ∧
      (∀ id ∈ idsF (wrapInline fresh l).1,
        id ∈ idsF l ∨ (fresh ≤ id ∧ id < (wrapInline fresh l).2)) ∧
      ((idsF l).Nodup → (idsF (wrapInline fresh l).1).Nodup) := by
  induction l with
  | nil =>
    intro fresh _
    rw [wrapInline]
    dsimp only
    refine ⟨Nat.le_refl _, ?_, ?_⟩
    · intro id hid
      rw [idsF] at hid
      cases hid
    · intro _
      rw [idsF]
      exact List.nodup_nil
  | cons c cs ih =>
    intro fresh hb
    have hbc : ∀ id ∈ idsN c, id < fresh := fun id hid =>
      hb id (by rw [idsF]; exact List.mem_append.mpr (Or.inl hid))
    have hbcs : ∀ id ∈ idsF cs, id < fresh := fun id hid =>
      hb id (by rw [idsF]; exact List.mem_append.mpr (Or.inr hid))
    by_cases hc : (isElemNode c && !isBlockB c && !isMediaB c &&
        !(nodeTag c = mediaHolderElement) && !(nodeTag c = separatorElement)) = true
    · obtain ⟨h1, h2, h3⟩ := ih (fresh + 1) (fun id hid => Nat.lt_succ_of_lt (hbcs id hid))
      rw [wrapInline_pos fresh c cs hc]
      dsimp only
      refine ⟨Nat.le_trans (Nat.le_succ fresh) h1, ?_, ?_⟩
      · intro id hid
        simp only [idsF, idsN, List.cons_append, List.nil_append, List.append_nil,
          List.mem_cons, List.mem_append] at hid ⊢
        rcases hid with rfl | hid
        · exact Or.inr ⟨Nat.le_refl _, Nat.lt_of_lt_of_le (Nat.lt_succ_self _) h1⟩
        rcases hid with hid | hid
        · exact Or.inl (Or.inl hid)
        rcases h2 id hid with h | ⟨ha, hb'⟩
        · exact Or.inl (Or.inr h)
        · exact Or.inr ⟨Nat.le_trans (Nat.le_succ _) ha, hb'⟩
      · intro hnd
        simp only [idsF, idsN, List.cons_append, List.nil_append, List.append_nil] at hnd ⊢
        have h4 := List.nodup_append.mp hnd
        refine List.nodup_cons.mpr ⟨?_, List.nodup_append.mpr ⟨h4.1, h3 h4.2.1, ?_⟩⟩
        · intro hmem
          rcases List.mem_append.mp hmem with h | h
          · exact Nat.lt_irrefl fresh (hbc _ h)
          · rcases h2 _ h with h | ⟨ha, _⟩
            · exact Nat.lt_irrefl fresh (hbcs _ h)
            · omega
        · intro x hx hx'
          rcases h2 x hx' with h | ⟨ha, _⟩
          · exact h4.2.2 hx h
          · exact Nat.lt_irrefl x (Nat.lt_of_lt_of_le (hbc x hx) (Nat.le_trans (Nat.le_succ _) ha))
    · obtain ⟨h1, h2, h3⟩ := ih fresh hbcs
      rw [wrapInline_neg fresh c cs hc]
      dsimp only
      refine ⟨h1, ?_, ?_⟩
      · intro id hid
        simp only [idsF, List.mem_append] at hid ⊢
        rcases hid with hid | hid
        · exact Or.inl (Or.inl hid)
        rcases h2 id hid with h | hr
        · exact Or.inl (Or.inr h)
        · exact Or.inr hr
      · intro hnd
        simp only [idsF] at hnd ⊢
        have h4 := List.nodup_append.mp hnd
        refine List.nodup_append.mpr ⟨h4.1, h3 h4.2.1, ?_⟩
        intro x hx hx'
        rcases h2 x hx' with h | ⟨ha, _⟩
        · exact h4.2.2 hx h
        · exact Nat.lt_irrefl x (Nat.lt_of_lt_of_le (hbc x hx) ha)

theorem blockify_eq (fresh : Nat) (cs : List DNode) :
    blockifyInlineNodes fresh cs =
      wrapInline (wrapTexts fresh (normalizeF cs)).2 (wrapTexts fresh (normalizeF cs)).1 := by
  rw [blockifyInlineNodes]

theorem blockify_ids (fresh : Nat) (cs : List DNode)
    (hnd : (idsF cs).Nodup) (hb : ∀ id ∈ idsF cs, id < fresh) :
    (idsF (blockifyInlineNodes fresh cs).1).Nodup := by
  rw [blockify_eq]
  have hsub := normalizeF_ids cs
  have hnd1 : (idsF (normalizeF cs)).Nodup := hnd.sublist hsub
  have hb1 : ∀ id ∈ idsF (normalizeF cs), id < fresh := fun id hid => hb id (hsub.subset hid)
  obtain ⟨h1, h2, h3⟩ := wrapTexts_ids (normalizeF cs) fresh hb1
  have hb2 : ∀ id ∈ idsF (wrapTexts fresh (normalizeF cs)).1,
      id < (wrapTexts fresh (normalizeF cs)).2 := by
    intro id hid
    rcases h2 id hid with h | ⟨_, h⟩
    · exact Nat.lt_of_lt_of_le (hb1 id h) h1
    · exact h
  obtain ⟨_, _, h6⟩ := wrapInline_ids (wrapTexts fresh (normalizeF cs)).1
    (wrapTexts fresh (normalizeF cs)).2 hb2
  exact h6 (h3 hnd1)

theorem flattenR3_eq (cs : List DNode) (pi : Bool) :
    flattenR3 cs pi = (blockifyInlineNodes (maxIdF cs + 1) (normalizeF cs)).1 := by
  cases pi with
  | false => rfl
  | true => rfl

theorem uniq_flattenR3 {cs : List DNode} (pi : Bool) (hu : uniqF cs) :
    (idsF (flattenR3 cs pi)).Nodup := by
  rw [flattenR3_eq]
  have hsub := normalizeF_ids cs
  refine blockify_ids _ _ ((hu : (idsF cs).Nodup).sublist hsub) ?_
  intro id hid
  have : id ≤ maxIdF cs := le_foldr_max (idsF cs) id (hsub.subset hid)
  omega

theorem flattenBlocksDown_run (cs : List DNode) (pi : Bool)
    (h : ((getBlockNodes (flattenR2 cs pi).1).isEmpty && pi) = false) :
    flattenBlocksDown cs pi =
      processBlocks ((getBlockNodes (flattenR3 cs pi)).map nodeId) (flattenR3 cs pi) [] := by
  rw [flattenBlocksDown]
  dsimp only
  rw [if_neg (by rw [h]; exact Bool.false_ne_true)]

/-- C5 (counterexample): a single empty `<p></p>` child of the root is a
collected survivor that is editable, empty, and has NO block children of its
own — yet `flattenBlocksDown` drops it (the result forest is empty).  The
claimed drop condition "non-media-bearing AND empty AND has block children"
would keep it; the code's actual condition at dataFilter.js line 152 is
`contenteditable="false" OR (non-empty AND no block children)`, i.e. an
editable survivor is dropped when it is empty OR has block children. -/
theorem c5_drop_condition_counterexample :
    flattenBlocksDown [DNode.elem 1 "P" [] []] false = [] ∧
    collectedB (DNode.elem 1 "P" [] []) = true ∧
    ceOff (DNode.elem 1 "P" [] []) = false ∧
    isEmptyElementB (DNode.elem 1 "P" [] []) = true ∧
    hasBlockChildrenB (DNode.elem 1 "P" [] []) = false := by
  refine ⟨by decide, by decide, by decide, by decide, by decide⟩

/-- C5 (amended): in the non-short-circuit path of `flattenBlocksDown`
(`preserveInline` unset, or some block was found), over a tree with faithful
node identities, the resulting root children are — by identity, in document
order — exactly the collected survivors (descendants with a recognized block
tag or `contenteditable="false"`) that pass the keep test
`keepB n = ceOff n || (!isEmptyElementB n && !hasBlockChildrenB n)`:
a non-editable survivor is always kept, and an editable one is dropped iff
it is empty or has block children of its own. -/
theorem c5_block_flattening_amended (cs : List DNode) (pi : Bool)
    (hu : uniqF cs)
    (hrun : ((getBlockNodes (flattenR2 cs pi).1).isEmpty && pi) = false) :
    (flattenBlocksDown cs pi).map nodeId =
      ((getBlockNodes (flattenR3 cs pi)).filter keepB).map nodeId := by
  have hu3 : (idsF (flattenR3 cs pi)).Nodup := uniq_flattenR3 pi hu
  rw [flattenBlocksDown_run cs pi hrun]
  have hmain := processBlocks_ids (getBlockNodes (flattenR3 cs pi)) (flattenR3 cs pi) []
    (by rw [idsF, List.append_nil]; exact hu3)
    (fun b hb => Or.inl ((elem_find).2 (flattenR3 cs pi) b hu3 (List.mem_of_mem_filter hb)))
    (List.Pairwise.sublist (List.filter_sublist _) ((elems_pairwise).2 (flattenR3 cs pi) hu3))
    (List.Nodup.sublist ((List.filter_sublist _).map nodeId)
      (List.Nodup.sublist ((elems_ids_sublist).2 (flattenR3 cs pi)) hu3))
    (fun b _ h => by simp at h)
  rw [hmain]
  simp

/-- C5 (amended, witness): a root holding `<p>hi</p>` with distinct node
identities; the flattened root children are by identity the kept survivors. -/
theorem c5_block_flattening_amended_witness :
    (flattenBlocksDown [DNode.elem 1 "P" [] [DNode.text 2 "hi"]] false).map nodeId =
      ((getBlockNodes (flattenR3 [DNode.elem 1 "P" [] [DNode.text 2 "hi"]] false)).filter
        keepB).map nodeId :=
  c5_block_flattening_amended [DNode.elem 1 "P" [] [DNode.text 2 "hi"]] false
    (by unfold uniqF; decide) (by decide)

theorem flattenBlocksDown_short (cs : List DNode) (pi : Bool)
    (h : ((getBlockNodes (flattenR2 cs pi).1).isEmpty && pi) = true) :
    flattenBlocksDown cs pi = (flattenR2 cs pi).1 := by
  rw [flattenBlocksDown]
  dsimp only
  rw [if_pos h]

theorem findN_self (c : DNode) : findN c (nodeId c) = some c := by
  cases c with
  | text i s => rw [findN, nodeId, if_pos rfl]
  | elem i t a k => rw [findN, nodeId, if_pos rfl]

theorem wrapTexts_elems_id (ds : List DNode) (hel : ∀ c ∈ ds, isElemNode c = true) :
    ∀ fresh : Nat, wrapTexts fresh ds = (ds, fresh) := by
  induction ds with
  | nil =>
    intro fresh
    rw [wrapTexts]
  | cons c cs ih =>
    intro fresh
    cases c with
    | text i s =>
      have := hel (.text i s) (List.mem_cons_self _ _)
      rw [isElemNode] at this
      cases this
    | elem j tg a k =>
      rw [wrapTexts_elem, ih (fun c hc => hel c (List.mem_cons_of_mem _ hc)) fresh]

theorem wrapInline_skip_id (ds : List DNode)
    (hsk : ∀ c ∈ ds, (isElemNode c && !isBlockB c && !isMediaB c &&
      !(nodeTag c = mediaHolderElement) && !(nodeTag c = separatorElement)) = false) :
    ∀ fresh : Nat, wrapInline fresh ds = (ds, fresh) := by
  induction ds with
  | nil =>
    intro fresh
    rw [wrapInline]
  | cons c cs ih =>
    intro fresh
    have hc : ¬ (isElemNode c && !isBlockB c && !isMediaB c &&
        !(nodeTag c = mediaHolderElement) && !(nodeTag c = separatorElement)) = true := by
      rw [hsk c (List.mem_cons_self _ _)]
      exact Bool.false_ne_true
    rw [wrapInline_neg fresh c cs hc, ih (fun d hd => hsk d (List.mem_cons_of_mem _ hd)) fresh]

theorem blockify_stable_id (ds : List DNode) (fresh : Nat)
    (hn : normalizeF ds = ds)
    (hel : ∀ c ∈ ds, isElemNode c = true)
    (hsk : ∀ c ∈ ds, (isElemNode c && !isBlockB c && !isMediaB c &&
      !(nodeTag c = mediaHolderElement) && !(nodeTag c = separatorElement)) = false) :
    blockifyInlineNodes fresh ds = (ds, fresh) := by
  rw [blockify_eq, hn, wrapTexts_elems_id ds hel fresh]
  exact wrapInline_skip_id ds hsk fresh

theorem getBlockNodes_stable (ds : List DNode)
    (hel : ∀ c ∈ ds, isElemNode c = true)
    (hcol : ∀ c ∈ ds, collectedB c = true)
    (hdesc : ∀ c ∈ ds, (descElems c).all (fun e => !collectedB e) = true) :
    getBlockNodes ds = ds := by
  induction ds with
  | nil => rw [getBlockNodes, elemsF, List.filter_nil]
  | cons c cs ih =>
    rw [getBlockNodes, elemsF, List.filter_append]
    have hstep : (elemsN c).filter collectedB = [c] := by
      cases c with
      | text i s =>
        have := hel (.text i s) (List.mem_cons_self _ _)
        rw [isElemNode] at this
        cases this
      | elem j tg a k =>
        rw [elemsN, List.filter_cons_of_pos (hcol _ (List.mem_cons_self _ _))]
        have hnil : (elemsF k).filter collectedB = [] := by
          rw [List.filter_eq_nil_iff]
          intro e he
          have h1 := List.all_eq_true.mp (hdesc _ (List.mem_cons_self _ _)) e
            (by rw [descElems]; exact he)
          simp at h1
          simp [h1]
        rw [hnil]
    rw [hstep]
    have ihr := ih (fun d hd => hel d (List.mem_cons_of_mem _ hd))
      (fun d hd => hcol d (List.mem_cons_of_mem _ hd))
      (fun d hd => hdesc d (List.mem_cons_of_mem _ hd))
    rw [getBlockNodes] at ihr
    rw [ihr, List.singleton_append]

theorem processBlocks_self (bs : List DNode) :
    ∀ out : List DNode, (∀ c ∈ bs, keepB c = true) →
      processBlocks (bs.map nodeId) bs out = out ++ bs := by
  induction bs with
  | nil =>
    intro out _
    rw [List.map_nil, processBlocks, List.append_nil]
  | cons c cs ih =>
    intro out hk
    rw [List.map_cons, processBlocks]
    have hfs : findF (c :: cs) (nodeId c) = some c := by
      rw [findF, findN_self]
    rw [hfs]
    dsimp only
    have hrem : removeF (c :: cs) (nodeId c) = cs := by
      rw [removeF, if_pos rfl]
    rw [if_pos (hk c (List.mem_cons_self _ _)), hrem,
      ih (out ++ [c]) (fun d hd => hk d (List.mem_cons_of_mem _ hd))]
    simp

theorem flatten_stable (ds : List DNode) (pi : Bool)
    (h1 : normalizeF ds = ds)
    (h3 : ∀ c ∈ ds, isElemNode c = true ∧ collectedB c = true ∧ keepB c = true)
    (h4 : ∀ c ∈ ds, (descElems c).all (fun e => !collectedB e) = true)
    (h5 : ∀ c ∈ ds, ceOff c = true → isBlockB c = false →
      (isMediaB c || (nodeTag c = mediaHolderElement) || (nodeTag c = separatorElement)) = true) :
    flattenBlocksDown ds pi = ds := by
  have hel : ∀ c ∈ ds, isElemNode c = true := fun c hc => (h3 c hc).1
  have hcol : ∀ c ∈ ds, collectedB c = true := fun c hc => (h3 c hc).2.1
  have hkeep : ∀ c ∈ ds, keepB c = true := fun c hc => (h3 c hc).2.2
  have hsk : ∀ c ∈ ds, (isElemNode c && !isBlockB c && !isMediaB c &&
      !(nodeTag c = mediaHolderElement) && !(nodeTag c = separatorElement)) = false := by
    intro c hc
    cases hbl : isBlockB c with
    | true => simp [hbl]
    | false =>
      have hce : ceOff c = true := by
        have := hcol c hc
        rw [collectedB, hbl] at this
        simpa using this
      have h5' := h5 c hc hce hbl
      rcases Bool.or_eq_true_iff.mp h5' with h | h
      · rcases Bool.or_eq_true_iff.mp h with h | h
        · simp [h]
        · simp [h]
      · simp [h]
  have hblock : ∀ fresh, blockifyInlineNodes fresh ds = (ds, fresh) :=
    fun fresh => blockify_stable_id ds fresh h1 hel hsk
  have hr2 : flattenR2 ds pi = (ds, maxIdF ds + 1) := by
    cases pi with
    | false =>
      show blockifyInlineNodes (maxIdF ds + 1) (normalizeF ds) = (ds, maxIdF ds + 1)
      rw [h1]
      exact hblock _
    | true =>
      show ((normalizeF ds, maxIdF ds + 1) : List DNode × Nat) = (ds, maxIdF ds + 1)
      rw [h1]
  have hr3 : flattenR3 ds pi = ds := by
    rw [flattenR3_eq, h1, hblock]
  have hgb : getBlockNodes ds = ds := getBlockNodes_stable ds hel hcol h4
  have hfst : (flattenR2 ds pi).1 = ds := by rw [hr2]
  by_cases hcond : ((getBlockNodes ds).isEmpty && pi) = true
  · rw [flattenBlocksDown_short ds pi (by rw [hfst]; exact hcond), hfst]
  · have hcf : ((getBlockNodes (flattenR2 ds pi).1).isEmpty && pi) = false := by
      rw [hfst]
      revert hcond
      cases ((getBlockNodes ds).isEmpty && pi) <;> simp
    rw [flattenBlocksDown_run ds pi hcf, hr3, hgb]
    rw [processBlocks_self ds [] hkeep, List.nil_append]

/-- C6 (counterexample): `flattenBlocksDown` is not idempotent.  On the root
children `<p><span><blockquote>x</blockquote></span></p>`, one pass keeps the
`<p>` (non-empty, and `<span>` is not a block child) while extracting the
nested `<blockquote>` out of it — leaving the `<p>` empty.  The second pass
then collects the now-empty `<p>`, drops it (it fails the keep test), and the
emptied root never gets it back: one pass yields the two children
`<p><span></span></p>, <blockquote>x</blockquote>`, two passes yield only
`<blockquote>x</blockquote>`. -/
theorem c6_not_idempotent_counterexample :
    flattenBlocksDown
        (flattenBlocksDown
          [DNode.elem 1 "P" [] [DNode.elem 2 "SPAN" []
            [DNode.elem 3 "BLOCKQUOTE" [] [DNode.text 4 "x"]]]] false) false ≠
      flattenBlocksDown
        [DNode.elem 1 "P" [] [DNode.elem 2 "SPAN" []
          [DNode.elem 3 "BLOCKQUOTE" [] [DNode.text 4 "x"]]]] false := by
  decide

/-- C6 (amended): `flattenBlocksDown` applied twice equals one application
whenever the first pass's output is stable — deeply normalized, every root
child an element that is a collected survivor passing the keep test, no
collected element nested below a root child, and every non-block
non-editable root child media-tagged, a `DIV` media holder, or an `HR`
separator (so the inline-wrapping pass leaves it alone).  The counterexample
shows a first pass need not land in this stable set, so idempotence fails in
general. -/
theorem c6_flatten_idempotent_amended (cs : List DNode) (pi : Bool)
    (h1 : normalizeF (flattenBlocksDown cs pi) = flattenBlocksDown cs pi)
    (h3 : ∀ c ∈ flattenBlocksDown cs pi,
      isElemNode c = true ∧ collectedB c = true ∧ keepB c = true)
    (h4 : ∀ c ∈ flattenBlocksDown cs pi,
      (descElems c).all (fun e => !collectedB e) = true)
    (h5 : ∀ c ∈ flattenBlocksDown cs pi, ceOff c = true → isBlockB c = false →
      (isMediaB c || (nodeTag c = mediaHolderElement) ||
        (nodeTag c = separatorElement)) = true) :
    flattenBlocksDown (flattenBlocksDown cs pi) pi = flattenBlocksDown cs pi :=
  flatten_stable (flattenBlocksDown cs pi) pi h1 h3 h4 h5

/-- C6 (amended, witness): on the root children `<p>hi</p>` the first pass's
output is stable, and the second pass returns it unchanged. -/
theorem c6_flatten_idempotent_amended_witness :
    flattenBlocksDown
        (flattenBlocksDown [DNode.elem 1 "P" [] [DNode.text 2 "hi"]] false) false =
      flattenBlocksDown [DNode.elem 1 "P" [] [DNode.text 2 "hi"]] false :=
  c6_flatten_idempotent_amended [DNode.elem 1 "P" [] [DNode.text 2 "hi"]] false
    (by decide) (by decide) (by decide) (by decide)

theorem leavesText_nil : leavesText [] = "" := rfl

theorem leavesText_cons (i : Nat) (s : String) (rest : List (Nat × String)) :
    leavesText ((i, s) :: rest) = s ++ leavesText rest := rfl

theorem leavesText_append (a b : List (Nat × String)) :
    leavesText (a ++ b) = leavesText a ++ leavesText b := by
  induction a with
  | nil => rw [List.nil_append, leavesText_nil, String.empty_append]
  | cons c cs ih =>
    obtain ⟨i, s⟩ := c
    rw [List.cons_append, leavesText_cons, leavesText_cons, ih, String.append_assoc]

theorem strSlice_length (s : String) (a b : Nat) (hab : a ≤ b) (hb : b ≤ s.length) :
    (strSlice s a b).length = b - a := by
  rw [strSlice]
  show ((s.toList.drop a).take (b - a)).length = b - a
  rw [List.length_take, List.length_drop]
  have : s.toList.length = s.length := by
    rw [String.length]
    rfl
  omega

theorem offsetIn_none_of_not_mem {L : List (Nat × String)} {j : Nat} (off : Nat)
    (h : j ∉ L.map Prod.fst) : offsetIn L j off = none := by
  induction L with
  | nil => rw [offsetIn]
  | cons c cs ih =>
    obtain ⟨i, s⟩ := c
    rw [List.map_cons] at h
    rw [offsetIn, if_neg (fun he => h (List.mem_cons.mpr (Or.inl he.symm))),
      ih (fun hm => h (List.mem_cons.mpr (Or.inr hm)))]
    rfl

theorem offsetIn_some_mem {L : List (Nat × String)} {j off k : Nat}
    (h : offsetIn L j off = some k) : j ∈ L.map Prod.fst := by
  induction L generalizing k with
  | nil => rw [offsetIn] at h; cases h
  | cons c cs ih =>
    obtain ⟨i, s⟩ := c
    rw [offsetIn] at h
    rw [List.map_cons]
    by_cases hij : i = j
    · exact List.mem_cons.mpr (Or.inl hij.symm)
    · rw [if_neg hij] at h
      cases hrec : offsetIn cs j off with
      | none => rw [hrec] at h; cases h
      | some k2 => exact List.mem_cons.mpr (Or.inr (ih hrec))

theorem offsetIn_append (a b : List (Nat × String)) (j off : Nat) :
    offsetIn (a ++ b) j off =
      match offsetIn a j off with
      | some k => some k
      | none => (offsetIn b j off).map ((leavesText a).length + ·) := by
  induction a with
  | nil =>
    rw [List.nil_append, offsetIn, leavesText_nil]
    cases hb : offsetIn b j off with
    | none => rfl
    | some k =>
      simp [String.length_empty]
  | cons c cs ih =>
    obtain ⟨i, s⟩ := c
    by_cases hij : i = j
    · simp only [List.cons_append, offsetIn, if_pos hij]
    · simp only [List.cons_append, offsetIn, if_neg hij, ih, leavesText_cons]
      cases ha : offsetIn cs j off <;> cases hb : offsetIn b j off <;>
        simp [ih, ha, hb, String.length_append, Nat.add_assoc]

theorem ed_sub_all :
    (∀ n : DNode, (edLeavesN n).Sublist (allLeavesN n)) ∧
    (∀ l : List DNode, (edLeavesF l).Sublist (allLeavesF l)) := by
  refine dnode_mutual_ind _ _ ?_ ?_ ?_ ?_
  · intro i s
    rw [edLeavesN, allLeavesN]
  · intro i t a cs ih
    rw [edLeavesN, allLeavesN]
    split
    · exact List.nil_sublist _
    · exact ih
  · rw [edLeavesF, allLeavesF]
  · intro c cs ihc ihcs
    rw [edLeavesF, allLeavesF]
    exact List.Sublist.append ihc ihcs

theorem all_leaf_ids :
    (∀ n : DNode, ((allLeavesN n).map Prod.fst).Sublist (idsN n)) ∧
    (∀ l : List DNode, ((allLeavesF l).map Prod.fst).Sublist (idsF l)) := by
  refine dnode_mutual_ind _ _ ?_ ?_ ?_ ?_
  · intro i s
    rw [allLeavesN, idsN, List.map_cons, List.map_nil]
  · intro i t a cs ih
    rw [allLeavesN, idsN]
    exact List.Sublist.trans ih (List.sublist_cons_of_sublist i (List.Sublist.refl _))
  · rw [allLeavesF, idsF, List.map_nil]
  · intro c cs ihc ihcs
    rw [allLeavesF, idsF, List.map_append]
    exact List.Sublist.append ihc ihcs

theorem textContent_leaves :
    (∀ n : DNode, leavesText (allLeavesN n) = textContent n) ∧
    (∀ l : List DNode, leavesText (allLeavesF l) = forestText l) := by
  refine dnode_mutual_ind _ _ ?_ ?_ ?_ ?_
  · intro i s
    rw [allLeavesN, textContent, leavesText_cons, leavesText_nil, String.append_empty]
  · intro i t a cs ih
    rw [allLeavesN, textContent]
    exact ih
  · rw [allLeavesF, forestText, leavesText_nil]
  · intro c cs ihc ihcs
    rw [allLeavesF, forestText, leavesText_append, ihc, ihcs]

theorem noNed_bridge :
    (∀ n : DNode, (∀ e ∈ elemsN n, ceOff e = true → textContent e = "") →
      ((allLeavesN n).map Prod.fst).Nodup →
      leavesText (allLeavesN n) = leavesText (edLeavesN n) ∧
      (∀ j off k, offsetIn (edLeavesN n) j off = some k →
        offsetIn (allLeavesN n) j off = some k)) ∧
    (∀ l : List DNode, (∀ e ∈ elemsF l, ceOff e = true → textContent e = "") →
      ((allLeavesF l).map Prod.fst).Nodup →
      leavesText (allLeavesF l) = leavesText (edLeavesF l) ∧
      (∀ j off k, offsetIn (edLeavesF l) j off = some k →
        offsetIn (allLeavesF l) j off = some k)) := by
  refine dnode_mutual_ind _ _ ?_ ?_ ?_ ?_
  · intro i s _ _
    rw [allLeavesN, edLeavesN]
    exact ⟨rfl, fun j off k h => h⟩
  · intro i t a cs ih hne hnd
    have hne' : ∀ e ∈ elemsF cs, ceOff e = true → textContent e = "" := fun e he =>
      hne e (by rw [elemsN]; exact List.mem_cons_of_mem _ he)
    rw [allLeavesN, edLeavesN]
    split
    · rename_i hce
      constructor
      · rw [leavesText_nil, (textContent_leaves).2 cs]
        have := hne (.elem i t a cs) (by rw [elemsN]; exact List.mem_cons_self _ _) hce
        rw [textContent] at this
        exact this
      · intro j off k h
        rw [offsetIn] at h
        cases h
    · rw [allLeavesN] at hnd
      exact ih hne' hnd
  · intro _ _
    rw [allLeavesF, edLeavesF]
    exact ⟨rfl, fun j off k h => h⟩
  · intro c cs ihc ihcs hne hnd
    have hneC : ∀ e ∈ elemsN c, ceOff e = true → textContent e = "" := fun e he =>
      hne e (by rw [elemsF]; exact List.mem_append.mpr (Or.inl he))
    have hneT : ∀ e ∈ elemsF cs, ceOff e = true → textContent e = "" := fun e he =>
      hne e (by rw [elemsF]; exact List.mem_append.mpr (Or.inr he))
    rw [allLeavesF, List.map_append] at hnd
    have hndC := (List.nodup_append.mp hnd).1
    have hndT := (List.nodup_append.mp hnd).2.1
    have hdisj := (List.nodup_append.mp hnd).2.2
    obtain ⟨heqC, htrC⟩ := ihc hneC hndC
    obtain ⟨heqT, htrT⟩ := ihcs hneT hndT
    rw [allLeavesF, edLeavesF]
    constructor
    · rw [leavesText_append, leavesText_append, heqC, heqT]
    · intro j off k h
      rw [offsetIn_append] at h ⊢
      cases ha : offsetIn (edLeavesN c) j off with
      | some k1 =>
        rw [ha] at h
        have h' : some k1 = some k := h
        cases h'
        rw [htrC j off k ha]
      | none =>
        rw [ha] at h
        have h' : (offsetIn (edLeavesF cs) j off).map ((leavesText (edLeavesN c)).length + ·) =
            some k := h
        cases hb : offsetIn (edLeavesF cs) j off with
        | none =>
          rw [hb] at h'
          cases h'
        | some k2 =>
          rw [hb] at h'
          have hk : k = (leavesText (edLeavesN c)).length + k2 := by
            have : some ((leavesText (edLeavesN c)).length + k2) = some k := h'
            exact (Option.some.inj this).symm
          have hjT : j ∈ (allLeavesF cs).map Prod.fst := by
            have h1 := offsetIn_some_mem hb
            have h2 : (edLeavesF cs).Sublist (allLeavesF cs) := (ed_sub_all).2 cs
            exact (h2.map Prod.fst).subset h1
          have hjC : j ∉ (allLeavesN c).map Prod.fst := fun hin => hdisj hin hjT
          rw [offsetIn_none_of_not_mem off hjC, htrT j off k2 hb]
          show some ((leavesText (allLeavesN c)).length + k2) = some k
          rw [heqC, hk]

theorem save_edLeaves :
    (∀ n : DNode, ∀ target tOff start,
      saveN target tOff n start =
        match offsetIn (edLeavesN n) target tOff with
        | some k => Sum.inl (start + k)
        | none => Sum.inr (start + (leavesText (edLeavesN n)).length)) ∧
    (∀ l : List DNode, ∀ target tOff start,
      saveF target tOff l start =
        match offsetIn (edLeavesF l) target tOff with
        | some k => Sum.inl (start + k)
        | none => Sum.inr (start + (leavesText (edLeavesF l)).length)) := by
  refine dnode_mutual_ind _ _ ?_ ?_ ?_ ?_
  · intro i s target tOff start
    rw [saveN, edLeavesN, offsetIn]
    by_cases hit : i = target
    · rw [if_pos hit, if_pos hit]
    · rw [if_neg hit, if_neg hit, offsetIn]
      show Sum.inr (start + s.length) =
        Sum.inr (start + (leavesText [(i, s)]).length)
      rw [leavesText_cons, leavesText_nil, String.append_empty]
  · intro i t a cs ih target tOff start
    rw [saveN, edLeavesN]
    split
    · rw [offsetIn]
      show Sum.inr start = Sum.inr (start + (leavesText ([] : List (Nat × String))).length)
      rw [leavesText_nil]
      show Sum.inr start = Sum.inr (start + 0)
      rw [Nat.add_zero]
    · exact ih target tOff start
  · intro target tOff start
    rw [saveF, edLeavesF, offsetIn, leavesText_nil]
    show Sum.inr start = Sum.inr (start + 0)
    rw [Nat.add_zero]
  · intro c cs ihc ihcs target tOff start
    rw [saveF, edLeavesF, ihc target tOff start, offsetIn_append]
    cases ha : offsetIn (edLeavesN c) target tOff with
    | some k => rfl
    | none =>
      show saveF target tOff cs (start + (leavesText (edLeavesN c)).length) =
        match (offsetIn (edLeavesF cs) target tOff).map
          ((leavesText (edLeavesN c)).length + ·) with
        | some k => Sum.inl (start + k)
        | none => Sum.inr (start + (leavesText (edLeavesN c ++ edLeavesF cs)).length)
      rw [ihcs target tOff (start + (leavesText (edLeavesN c)).length)]
      cases hb : offsetIn (edLeavesF cs) target tOff with
      | some k =>
        show Sum.inl (start + (leavesText (edLeavesN c)).length + k) =
          Sum.inl (start + ((leavesText (edLeavesN c)).length + k))
        rw [Nat.add_assoc]
      | none =>
        show Sum.inr (start + (leavesText (edLeavesN c)).length +
            (leavesText (edLeavesF cs)).length) =
          Sum.inr (start + (leavesText (edLeavesN c ++ edLeavesF cs)).length)
        rw [leavesText_append, String.length_append, Nat.add_assoc]

theorem restoreLeaf_stable (sv ev j : Nat) (s : String) (st : RestoreSt)
    (h : st.rangeEnd.isSome = true) : restoreLeaf sv ev j s st = st := by
  rw [restoreLeaf, if_pos h]

theorem restoreLeaves_stable (sv ev : Nat) (L : List (Nat × String)) (st : RestoreSt)
    (h : st.rangeEnd.isSome = true) : restoreLeaves sv ev L st = st := by
  induction L with
  | nil => rw [restoreLeaves]
  | cons c cs ih =>
    obtain ⟨j, s⟩ := c
    rw [restoreLeaves, restoreLeaf_stable sv ev j s st h, ih]

theorem restoreLeaves_append (sv ev : Nat) (a b : List (Nat × String)) (st : RestoreSt) :
    restoreLeaves sv ev (a ++ b) st = restoreLeaves sv ev b (restoreLeaves sv ev a st) := by
  induction a generalizing st with
  | nil => rw [List.nil_append, restoreLeaves]
  | cons c cs ih =>
    obtain ⟨j, s⟩ := c
    rw [List.cons_append, restoreLeaves, restoreLeaves, ih]

theorem restore_edLeaves (sv ev : Nat) :
    (∀ n : DNode, ∀ st, restoreN sv ev n st = restoreLeaves sv ev (edLeavesN n) st) ∧
    (∀ l : List DNode, ∀ st, restoreF sv ev l st = restoreLeaves sv ev (edLeavesF l) st) := by
  refine dnode_mutual_ind _ _ ?_ ?_ ?_ ?_
  · intro i s st
    rw [edLeavesN, restoreLeaves, restoreLeaves]
    rfl
  · intro i t a cs ih st
    rw [edLeavesN]
    by_cases hend : st.rangeEnd.isSome = true
    · rw [restoreN, if_pos hend]
      split
      · rw [restoreLeaves]
      · rw [restoreLeaves_stable sv ev _ st hend]
    · rw [restoreN, if_neg hend]
      split
      · rw [restoreLeaves]
      · exact ih st
  · intro st
    rw [edLeavesF, restoreF, restoreLeaves]
  · intro c cs ihc ihcs st
    rw [edLeavesF, restoreF, restoreLeaves_append, ihc, ihcs]

theorem restoreLeaf_seek (sv ev j : Nat) (s : String) (pre : Nat)
    (h1 : ¬ sv < pre + s.length) (h2 : ¬ pre + s.length = ev) :
    restoreLeaf sv ev j s ⟨pre, none, none⟩ = ⟨pre + s.length, none, none⟩ := by
  rw [restoreLeaf]
  simp [h1, h2]

theorem restoreLeaf_start (sv ev j : Nat) (s : String) (pre : Nat)
    (h1 : pre ≤ sv) (h2 : sv < pre + s.length) (h3 : ¬ ev ≤ pre + s.length) :
    restoreLeaf sv ev j s ⟨pre, none, none⟩ =
      ⟨pre + s.length, some ⟨j, sv - pre⟩, none⟩ := by
  rw [restoreLeaf]
  simp [h1, h2, h3]

theorem restoreLeaf_start_end (sv ev j : Nat) (s : String) (pre : Nat)
    (h1 : pre ≤ sv) (h2 : sv < pre + s.length) (h3 : pre ≤ ev) (h4 : ev ≤ pre + s.length) :
    restoreLeaf sv ev j s ⟨pre, none, none⟩ =
      ⟨pre + s.length, some ⟨j, sv - pre⟩, some ⟨j, ev - pre⟩⟩ := by
  rw [restoreLeaf]
  simp [h1, h2, h3, h4]

theorem restoreLeaf_wait (sv ev j : Nat) (s : String) (pre : Nat) (pt : RangePoint)
    (h1 : ¬ ev ≤ pre + s.length) :
    restoreLeaf sv ev j s ⟨pre, some pt, none⟩ = ⟨pre + s.length, some pt, none⟩ := by
  rw [restoreLeaf]
  simp [h1]

theorem restoreLeaf_end (sv ev j : Nat) (s : String) (pre : Nat) (pt : RangePoint)
    (h1 : pre ≤ ev) (h2 : ev ≤ pre + s.length) :
    restoreLeaf sv ev j s ⟨pre, some pt, none⟩ =
      ⟨pre + s.length, some pt, some ⟨j, ev - pre⟩⟩ := by
  rw [restoreLeaf]
  simp [h1, h2]

theorem restore_end (L : List (Nat × String)) :
    ∀ (sv ev pre : Nat) (pt : RangePoint),
      (L.map Prod.fst).Nodup → pre < ev → ev ≤ pre + (leavesText L).length →
      ∃ j2 o2,
        (restoreLeaves sv ev L ⟨pre, some pt, none⟩).rangeStart = some pt ∧
        (restoreLeaves sv ev L ⟨pre, some pt, none⟩).rangeEnd = some ⟨j2, o2⟩ ∧
        j2 ∈ L.map Prod.fst ∧
        offsetIn L j2 o2 = some (ev - pre) := by
  induction L with
  | nil =>
    intro sv ev pre pt _ hlt hle
    rw [leavesText_nil, String.length_empty] at hle
    exact absurd hle (by omega)
  | cons c cs ih =>
    intro sv ev pre pt hnd hlt hle
    obtain ⟨j, s⟩ := c
    rw [List.map_cons] at hnd
    have hndT := (List.nodup_cons.mp hnd).2
    have hj : j ∉ cs.map Prod.fst := (List.nodup_cons.mp hnd).1
    rw [leavesText_cons, String.length_append] at hle
    by_cases hev : ev ≤ pre + s.length
    · refine ⟨j, ev - pre, ?_⟩
      rw [restoreLeaves, restoreLeaf_end sv ev j s pre pt (by omega) hev,
        restoreLeaves_stable sv ev cs _ (by rfl)]
      refine ⟨rfl, rfl, ?_, ?_⟩
      · rw [List.map_cons]
        exact List.mem_cons_self _ _
      · rw [offsetIn, if_pos rfl]
    · obtain ⟨j2, o2, hS, hE, hM, hO⟩ :=
        ih sv ev (pre + s.length) pt hndT (by omega) (by omega)
      refine ⟨j2, o2, ?_⟩
      rw [restoreLeaves, restoreLeaf_wait sv ev j s pre pt hev]
      refine ⟨hS, hE, ?_, ?_⟩
      · rw [List.map_cons]
        exact List.mem_cons_of_mem _ hM
      · have hne : ¬ j = j2 := fun he => hj (he ▸ hM)
        rw [offsetIn, if_neg hne, hO]
        show some (s.length + (ev - (pre + s.length))) = some (ev - pre)
        congr 1
        omega

theorem restore_correct (L : List (Nat × String)) :
    ∀ (sv ev pre : Nat),
      (L.map Prod.fst).Nodup → pre ≤ sv → sv < ev → ev ≤ pre + (leavesText L).length →
      ∃ j1 o1 j2 o2,
        (restoreLeaves sv ev L ⟨pre, none, none⟩).rangeStart = some ⟨j1, o1⟩ ∧
        (restoreLeaves sv ev L ⟨pre, none, none⟩).rangeEnd = some ⟨j2, o2⟩ ∧
        j1 ∈ L.map Prod.fst ∧ j2 ∈ L.map Prod.fst ∧
        offsetIn L j1 o1 = some (sv - pre) ∧
        offsetIn L j2 o2 = some (ev - pre) := by
  induction L with
  | nil =>
    intro sv ev pre _ hps hlt hle
    rw [leavesText_nil, String.length_empty] at hle
    exact absurd hle (by omega)
  | cons c cs ih =>
    intro sv ev pre hnd hps hlt hle
    obtain ⟨j, s⟩ := c
    rw [List.map_cons] at hnd
    have hndT := (List.nodup_cons.mp hnd).2
    have hj : j ∉ cs.map Prod.fst := (List.nodup_cons.mp hnd).1
    rw [leavesText_cons, String.length_append] at hle
    by_cases hsv : sv < pre + s.length
    · by_cases hev : ev ≤ pre + s.length
      · refine ⟨j, sv - pre, j, ev - pre, ?_⟩
        rw [restoreLeaves, restoreLeaf_start_end sv ev j s pre hps hsv (by omega) hev,
          restoreLeaves_stable sv ev cs _ (by rfl)]
        refine ⟨rfl, rfl, ?_, ?_, ?_, ?_⟩
        · rw [List.map_cons]; exact List.mem_cons_self _ _
        · rw [List.map_cons]; exact List.mem_cons_self _ _
        · rw [offsetIn, if_pos rfl]
        · rw [offsetIn, if_pos rfl]
      · obtain ⟨j2, o2, hS, hE, hM, hO⟩ :=
          restore_end cs sv ev (pre + s.length) ⟨j, sv - pre⟩ hndT (by omega) (by omega)
        refine ⟨j, sv - pre, j2, o2, ?_⟩
        rw [restoreLeaves, restoreLeaf_start sv ev j s pre hps hsv hev]
        refine ⟨hS, hE, ?_, ?_, ?_, ?_⟩
        · rw [List.map_cons]; exact List.mem_cons_self _ _
        · rw [List.map_cons]; exact List.mem_cons_of_mem _ hM
        · rw [offsetIn, if_pos rfl]
        · have hne : ¬ j = j2 := fun he => hj (he ▸ hM)
          rw [offsetIn, if_neg hne, hO]
          show some (s.length + (ev - (pre + s.length))) = some (ev - pre)
          congr 1
          omega
    · obtain ⟨j1, o1, j2, o2, hS, hE, hM1, hM2, hO1, hO2⟩ :=
        ih sv ev (pre + s.length) hndT (by omega) hlt (by omega)
      refine ⟨j1, o1, j2, o2, ?_⟩
      rw [restoreLeaves, restoreLeaf_seek sv ev j s pre hsv (by omega)]
      refine ⟨hS, hE, ?_, ?_, ?_, ?_⟩
      · rw [List.map_cons]; exact List.mem_cons_of_mem _ hM1
      · rw [List.map_cons]; exact List.mem_cons_of_mem _ hM2
      · have hne : ¬ j = j1 := fun he => hj (he ▸ hM1)
        rw [offsetIn, if_neg hne, hO1]
        show some (s.length + (sv - (pre + s.length))) = some (sv - pre)
        congr 1
        omega
      · have hne : ¬ j = j2 := fun he => hj (he ▸ hM2)
        rw [offsetIn, if_neg hne, hO2]
        show some (s.length + (ev - (pre + s.length))) = some (ev - pre)
        congr 1
        omega

/-- C1 (amended): selection persistence round-trips under the amendments
that (a) no text sits inside `contenteditable="false"` subtrees (the
counterexample shows `end = start + range.toString().length` otherwise
counts skipped text and the restored range overshoots), (b) node identities
are unique, and (c) the selection is not collapsed (`start < end`; the
collapsed case goes through a separate cursor edge-case branch).  Then the
saved offsets are exactly the global editable-text offsets `(gs, ge)`, and
restoring into any container with the same editable text yields a range
that stringifies to `T.slice(gs, ge)`. -/
theorem c1_selection_roundtrip_amended
    (t1 t2 : DNode) (p q : RangePoint) (gs ge : Nat)
    (hn1 : noNonEdTextF [t1] = true) (hn2 : noNonEdTextF [t2] = true)
    (hu1 : uniqF [t1]) (hu2 : uniqF [t2])
    (hT : editableText t2 = editableText t1)
    (hp : offsetIn (edLeavesN t1) p.node p.off = some gs)
    (hq : offsetIn (edLeavesN t1) q.node q.off = some ge)
    (hlt : gs < ge) (hle : ge ≤ (editableText t1).length) :
    saveSelection t1 p q = (gs, ge) ∧
    ∃ p1 p2 : RangePoint,
      (restoreWalk t2 gs ge).rangeStart = some p1 ∧
      (restoreWalk t2 gs ge).rangeEnd = some p2 ∧
      rangeString t2 p1 p2 = some (strSlice (editableText t1) gs ge) := by
  have hne1 : ∀ e ∈ elemsN t1, ceOff e = true → textContent e = "" := by
    intro e he hce
    rw [noNonEdTextF] at hn1
    have h := List.all_eq_true.mp hn1 e
      (by rw [elemsF, elemsF, List.append_nil]; exact he)
    rw [hce] at h
    simpa using h
  have hne2 : ∀ e ∈ elemsN t2, ceOff e = true → textContent e = "" := by
    intro e he hce
    rw [noNonEdTextF] at hn2
    have h := List.all_eq_true.mp hn2 e
      (by rw [elemsF, elemsF, List.append_nil]; exact he)
    rw [hce] at h
    simpa using h
  have hnd1all : ((allLeavesN t1).map Prod.fst).Nodup := by
    have h1 : (idsN t1).Nodup := by
      have h0 : (idsF [t1]).Nodup := hu1
      simp only [idsF, List.append_nil] at h0
      exact h0
    exact h1.sublist ((all_leaf_ids).1 t1)
  have hnd2all : ((allLeavesN t2).map Prod.fst).Nodup := by
    have h1 : (idsN t2).Nodup := by
      have h0 : (idsF [t2]).Nodup := hu2
      simp only [idsF, List.append_nil] at h0
      exact h0
    exact h1.sublist ((all_leaf_ids).1 t2)
  have hnd2ed : ((edLeavesN t2).map Prod.fst).Nodup :=
    hnd2all.sublist (((ed_sub_all).1 t2).map Prod.fst)
  obtain ⟨heq1, htr1⟩ := (noNed_bridge).1 t1 hne1 hnd1all
  obtain ⟨heq2, htr2⟩ := (noNed_bridge).1 t2 hne2 hnd2all
  have hsw : saveWalk t1 p.node p.off = gs := by
    rw [saveWalk, (save_edLeaves).1 t1 p.node p.off 0, hp]
    show 0 + gs = gs
    rw [Nat.zero_add]
  have hpa : offsetIn (allLeavesN t1) p.node p.off = some gs := htr1 _ _ _ hp
  have hqa : offsetIn (allLeavesN t1) q.node q.off = some ge := htr1 _ _ _ hq
  have hrs1 : rangeString t1 p q = some (strSlice (editableText t1) gs ge) := by
    rw [rangeString, hpa, hqa]
    show some (strSlice (leavesText (allLeavesN t1)) gs ge) =
      some (strSlice (editableText t1) gs ge)
    rw [heq1, editableText]
  have hsave : saveSelection t1 p q = (gs, ge) := by
    rw [saveSelection]
    rw [hsw, hrs1]
    show (gs, gs + (strSlice (editableText t1) gs ge).length) = (gs, ge)
    rw [strSlice_length _ _ _ (Nat.le_of_lt hlt) hle]
    congr 1
    omega
  refine ⟨hsave, ?_⟩
  have hw : restoreWalk t2 gs ge = restoreLeaves gs ge (edLeavesN t2) ⟨0, none, none⟩ := by
    rw [restoreWalk, (restore_edLeaves gs ge).1]
  have hlen2 : (leavesText (edLeavesN t2)).length = (editableText t1).length := by
    rw [← hT, editableText]
  obtain ⟨j1, o1, j2, o2, hS, hE, hM1, hM2, hO1, hO2⟩ :=
    restore_correct (edLeavesN t2) gs ge 0 hnd2ed (Nat.zero_le _) hlt (by omega)
  rw [Nat.sub_zero] at hO1 hO2
  refine ⟨⟨j1, o1⟩, ⟨j2, o2⟩, ?_, ?_, ?_⟩
  · rw [hw]
    exact hS
  · rw [hw]
    exact hE
  · have hpa2 : offsetIn (allLeavesN t2) j1 o1 = some gs := htr2 _ _ _ hO1
    have hqa2 : offsetIn (allLeavesN t2) j2 o2 = some ge := htr2 _ _ _ hO2
    rw [rangeString]
    rw [hpa2, hqa2]
    show some (strSlice (leavesText (allLeavesN t2)) gs ge) =
      some (strSlice (editableText t1) gs ge)
    rw [heq2, ← hT, editableText]

/-- C1 (amended, witness): save in `<div><p>ab</p><p>cd</p></div>` from
offset 1 of `ab` to offset 1 of `cd` (global editable offsets 1 and 3),
restore into the rewrapped `<div><h2>abcd</h2></div>` with the same text:
the restored range stringifies to `"abcd".slice(1, 3)`. -/
theorem c1_selection_roundtrip_amended_witness :
    saveSelection
        (DNode.elem 0 "DIV" [] [DNode.elem 1 "P" [] [DNode.text 2 "ab"],
          DNode.elem 3 "P" [] [DNode.text 4 "cd"]]) ⟨2, 1⟩ ⟨4, 1⟩ = (1, 3) ∧
    ∃ p1 p2 : RangePoint,
      (restoreWalk (DNode.elem 10 "DIV" [] [DNode.elem 11 "H2" []
          [DNode.text 12 "abcd"]]) 1 3).rangeStart = some p1 ∧
      (restoreWalk (DNode.elem 10 "DIV" [] [DNode.elem 11 "H2" []
          [DNode.text 12 "abcd"]]) 1 3).rangeEnd = some p2 ∧
      rangeString (DNode.elem 10 "DIV" [] [DNode.elem 11 "H2" []
          [DNode.text 12 "abcd"]]) p1 p2 =
        some (strSlice (editableText (DNode.elem 0 "DIV" []
          [DNode.elem 1 "P" [] [DNode.text 2 "ab"],
            DNode.elem 3 "P" [] [DNode.text 4 "cd"]])) 1 3) :=
  c1_selection_roundtrip_amended
    (DNode.elem 0 "DIV" [] [DNode.elem 1 "P" [] [DNode.text 2 "ab"],
      DNode.elem 3 "P" [] [DNode.text 4 "cd"]])
    (DNode.elem 10 "DIV" [] [DNode.elem 11 "H2" [] [DNode.text 12 "abcd"]])
    ⟨2, 1⟩ ⟨4, 1⟩ 1 3
    (by decide) (by decide) (by unfold uniqF; decide) (by unfold uniqF; decide)
    (by decide) (by decide) (by decide) (by decide) (by decide)

/-- C1 (counterexample): container
`<div>ab<div contenteditable="false">XY</div>cdef</div>` has editable text
`T = "abcdef"`.  Saving the selection from offset 1 of `ab` (global
editable offset 1) to offset 1 of `cdef` (global editable offset 3) stores
`(1, 5)` — `end = start + range.toString().length` counts the skipped
`"XY"`.  Restoring walks editable text only, lands the end at offset 3 of
`cdef`, and the restored range stringifies to `"bXYcde"` — not
`T.slice(1, 5) = "bcde"` nor the original selection's `T.slice(1, 3) =
"bc"`. -/
theorem c1_selection_roundtrip_counterexample :
    saveSelection
        (DNode.elem 0 "DIV" [] [DNode.text 1 "ab",
          DNode.elem 2 "DIV" [("contenteditable", "false")] [DNode.text 3 "XY"],
          DNode.text 4 "cdef"]) ⟨1, 1⟩ ⟨4, 1⟩ = (1, 5) ∧
    offsetIn (edLeavesN (DNode.elem 0 "DIV" [] [DNode.text 1 "ab",
      DNode.elem 2 "DIV" [("contenteditable", "false")] [DNode.text 3 "XY"],
      DNode.text 4 "cdef"])) 1 1 = some 1 ∧
    offsetIn (edLeavesN (DNode.elem 0 "DIV" [] [DNode.text 1 "ab",
      DNode.elem 2 "DIV" [("contenteditable", "false")] [DNode.text 3 "XY"],
      DNode.text 4 "cdef"])) 4 1 = some 3 ∧
    editableText (DNode.elem 0 "DIV" [] [DNode.text 1 "ab",
      DNode.elem 2 "DIV" [("contenteditable", "false")] [DNode.text 3 "XY"],
      DNode.text 4 "cdef"]) = "abcdef" ∧
    (restoreWalk (DNode.elem 0 "DIV" [] [DNode.text 1 "ab",
      DNode.elem 2 "DIV" [("contenteditable", "false")] [DNode.text 3 "XY"],
      DNode.text 4 "cdef"]) 1 5).rangeStart = some ⟨1, 1⟩ ∧
    (restoreWalk (DNode.elem 0 "DIV" [] [DNode.text 1 "ab",
      DNode.elem 2 "DIV" [("contenteditable", "false")] [DNode.text 3 "XY"],
      DNode.text 4 "cdef"]) 1 5).rangeEnd = some ⟨4, 3⟩ ∧
    rangeString (DNode.elem 0 "DIV" [] [DNode.text 1 "ab",
      DNode.elem 2 "DIV" [("contenteditable", "false")] [DNode.text 3 "XY"],
      DNode.text 4 "cdef"]) ⟨1, 1⟩ ⟨4, 3⟩ = some "bXYcde" ∧
    strSlice "abcdef" 1 5 = "bcde" ∧
    strSlice "abcdef" 1 3 = "bc" := by
  decide
